import Mathlib

/-!
# Verification of the aziz normalization/enrichment core

Shallow embedding of the repository's normalization pipeline:

* `src/lib/json_utils.py` : `to_camel_case`, `normalize_keys`
* `src/main.py`           : `flatten_records_maybe`, `is_scalar`, `safe_json_dumps`,
                            `sanitize_for_arrow`, `_num`, `_to_dt`, `enrich_rivco_row`,
                            `extract_amenities`

Python strings are modelled as lists of Unicode code points (`List Nat`); Python
floats are modelled as exact rationals (`ℚ`); fallible code returns `Except Unit`.
External library calls (`pandas`, `json`, `re`) are modelled by the documented
behaviour they have on the value shapes this program feeds them; each such model
is noted in the doc comment of the corresponding definition.
-/

namespace Aziz

/-! ## Character classes (ASCII ranges, as used by the source's regexes) -/

/-- `[a-z]` of the source regexes (ASCII range). -/
def isAsciiLowerAlpha (c : Nat) : Bool := 97 ≤ c && c ≤ 122

/-- `[A-Z]` of the source regexes (ASCII range). -/
def isAsciiUpperAlpha (c : Nat) : Bool := 65 ≤ c && c ≤ 90

/-- `[0-9]` of the source regexes (ASCII range). -/
def isAsciiDigit (c : Nat) : Bool := 48 ≤ c && c ≤ 57

/-- `[0-9A-Za-z]`, the alphanumeric class of `_NON_ALNUM`. -/
def isAsciiAlnum (c : Nat) : Bool := isAsciiDigit c || isAsciiUpperAlpha c || isAsciiLowerAlpha c

/-- `[a-z0-9]`, the first group of `_CAMEL_SPLIT`. -/
def isLowerDigit (c : Nat) : Bool := isAsciiLowerAlpha c || isAsciiDigit c

/-- ASCII letter (used by the model of `str.title`). -/
def isAsciiAlpha (c : Nat) : Bool := isAsciiLowerAlpha c || isAsciiUpperAlpha c

/-- The whitespace characters stripped/split by Python's `str.strip()` / `str.split()`
(ASCII subset; the pipeline only ever feeds it ASCII-space separators). -/
def isPyWs (c : Nat) : Bool := c = 32 || c = 9 || c = 10 || c = 13 || c = 11 || c = 12

/-- Python `str.lower` on one character (ASCII case mapping, which is all the
pipeline's tokens can contain at the point it is applied). -/
def pyLower (c : Nat) : Nat := if isAsciiUpperAlpha c then c + 32 else c

/-- Python `str.upper` on one character (ASCII case mapping). -/
def pyUpper (c : Nat) : Nat := if isAsciiLowerAlpha c then c - 32 else c

/-- Convenience: a Lean string literal as a list of code points, for concrete tests. -/
def pstr (s : String) : List Nat := s.data.map Char.toNat

/-! ## `to_camel_case` (src/lib/json_utils.py lines 12-37) -/

/-- Python `str.strip()`: remove leading and trailing whitespace. -/
def pyStrip (l : List Nat) : List Nat :=
  ((l.dropWhile isPyWs).reverse.dropWhile isPyWs).reverse

/-- `if s.endswith("__c"): s = s[:-3]` — remove a trailing `__c` (codes 95,95,99). -/
def stripSuffixC (l : List Nat) : List Nat :=
  if [95, 95, 99].isSuffixOf l then l.take (l.length - 3) else l

/-- `_CAMEL_SPLIT.sub(r"\1 \2", s)`: insert a space at every boundary where a
`[a-z0-9]` character is immediately followed by `[A-Z]`.  The regex's matches can
never overlap (the second matched character is uppercase, which cannot start a new
match), so the substitution is exactly this boundary insertion. -/
def camelSplit : List Nat → List Nat
  | [] => []
  | [c] => [c]
  | c :: d :: rest =>
    if isLowerDigit c && isAsciiUpperAlpha d then c :: 32 :: camelSplit (d :: rest)
    else c :: camelSplit (d :: rest)

/-- Worker for `nonAlnumSub`; the flag records whether the previous character was
part of a non-alphanumeric run (whose single replacement space is already out). -/
def nonAlnumSubGo : Bool → List Nat → List Nat
  | _, [] => []
  | inRun, c :: rest =>
    if isAsciiAlnum c then c :: nonAlnumSubGo false rest
    else if inRun then nonAlnumSubGo true rest
    else 32 :: nonAlnumSubGo true rest

/-- `_NON_ALNUM.sub(" ", s)`: replace every maximal run of non-alphanumeric
characters by a single space. -/
def nonAlnumSub (l : List Nat) : List Nat := nonAlnumSubGo false l

/-- Worker for `pySplitWs`: a whitespace character closes the current token
(possibly leaving an empty one to be filtered), any other character is prepended
to the token being built at the head. -/
def pySplitWsAux : List Nat → List (List Nat)
  | [] => []
  | c :: rest =>
    if isPyWs c then [] :: pySplitWsAux rest
    else
      match pySplitWsAux rest with
      | [] => [[c]]
      | t :: ts => (c :: t) :: ts

/-- Python `str.split()` (no separator): split on runs of whitespace, dropping
empty tokens. -/
def pySplitWs (l : List Nat) : List (List Nat) :=
  (pySplitWsAux l).filter (fun t => t ≠ [])

/-- `p[:1].upper() + p[1:].lower()` for a token `p`. -/
def capToken : List Nat → List Nat
  | [] => []
  | c :: rest => pyUpper c :: rest.map pyLower

/-- `to_camel_case` of `src/lib/json_utils.py` on a string value (non-string
inputs pass through unchanged in the source; mapping keys in the JSON-derived
trees this program normalizes are strings). -/
def toCamelCase (l : List Nat) : List Nat :=
  match (pySplitWs (nonAlnumSub (camelSplit (stripSuffixC (pyStrip l))))).filter
      (fun p => p ≠ []) with
  | [] => []
  | h :: t => h.map pyLower ++ (t.map capToken).flatten

example : toCamelCase (pstr "SALE_PRICE__c") = pstr "salePrice" := by decide
example : toCamelCase (pstr "golfCourse") = pstr "golfCourse" := by decide
example : toCamelCase (pstr "  multi   word__c ") = pstr "multiWord" := by decide
example : toCamelCase (pstr "___") = pstr "" := by decide
example : toCamelCase (pstr "1") = pstr "1" := by decide
example : toCamelCase (pstr "__c") = pstr "" := by decide
example : toCamelCase (pstr "a B C") = pstr "aBC" := by decide
example : toCamelCase (pstr "aBC") = pstr "aBc" := by decide

/-! ## Exact rationals for the float model

Python floats are modelled as exact rationals.  (Mathlib's `ℚ` does not reduce
inside the kernel, so concrete evaluations use this explicit normalized-fraction
type instead; `Frac.mk n d` with the invariant `d > 0`, `gcd |n| d = 1`
represents the rational `n / d`, and all constructors below maintain it.) -/
structure Frac where
  num : Int
  den : Nat
deriving DecidableEq

/-- Normalize `n / d` (for `d > 0`). -/
def Frac.norm (n : Int) (d : Nat) : Frac :=
  let g := Nat.gcd n.natAbs d
  ⟨n / g, d / g⟩

/-- The rational of an integer. -/
def Frac.ofInt (n : Int) : Frac := ⟨n, 1⟩

/-- Subtraction. -/
def Frac.sub (a b : Frac) : Frac :=
  Frac.norm (a.num * b.den - b.num * a.den) (a.den * b.den)

/-- Multiplication. -/
def Frac.mul (a b : Frac) : Frac := Frac.norm (a.num * b.num) (a.den * b.den)

/-- Division (callers guard against a zero divisor, as the source does). -/
def Frac.div (a b : Frac) : Frac :=
  if b.num < 0 then Frac.norm (-(a.num * b.den)) (a.den * b.num.natAbs)
  else Frac.norm (a.num * b.den) (a.den * b.num.natAbs)

/-- Strict order (denominators are positive). -/
def Frac.blt (a b : Frac) : Bool := a.num * b.den < b.num * a.den

/-! ## Python values

`PyVal` models the JSON-derived Python values the pipeline operates on: `none` is
Python `None`, `nan` is a float NaN (as produced by pandas for missing cells),
`float` is modelled as an exact rational, `str` as a list of code points, `dict`
as an insertion-ordered association list with pairwise-distinct keys (the
invariant every Python dict has; mapping keys of the JSON payloads are strings). -/
inductive PyVal where
  | none : PyVal
  | nan : PyVal
  | bool : Bool → PyVal
  | int : Int → PyVal
  | float : Frac → PyVal
  | str : List Nat → PyVal
  | list : List PyVal → PyVal
  | dict : List (List Nat × PyVal) → PyVal

/-- Python truthiness: `None`, `False`, zero numbers, and empty containers are
falsy; NaN is truthy. -/
def pyTruthy : PyVal → Bool
  | .none => false
  | .nan => true
  | .bool b => b
  | .int n => decide (n ≠ 0)
  | .float q => decide (q.num ≠ 0)
  | .str s => decide (s ≠ [])
  | .list l => !l.isEmpty
  | .dict d => !d.isEmpty

/-- Python `a or b`. -/
def pyOr (a b : PyVal) : PyVal := if pyTruthy a then a else b

/-- `d.get(k)` / `d.get(k, None)` on a dict (`pd.Series.get` behaves the same on
the rows this program builds): the stored value, or `None` when absent. -/
def pyGet (v : PyVal) (k : List Nat) : PyVal :=
  match v with
  | .dict kvs => ((kvs.find? (fun p => p.1 = k)).map Prod.snd).getD .none
  | _ => .none

/-- `d.get(k, dflt)` with an explicit default. -/
def pyGetD (v : PyVal) (k : List Nat) (dflt : PyVal) : PyVal :=
  match v with
  | .dict kvs => ((kvs.find? (fun p => p.1 = k)).map Prod.snd).getD dflt
  | _ => dflt

/-- Assignment `d[k] = v` on an insertion-ordered dict: update in place when the
key exists, else append. -/
def dictInsert (m : List (List Nat × PyVal)) (k : List Nat) (v : PyVal) :
    List (List Nat × PyVal) :=
  if m.any (fun p => p.1 = k) then m.map (fun p => if p.1 = k then (p.1, v) else p)
  else m ++ [(k, v)]

/-- The dict built by inserting the given (key, value) pairs in order — the
semantics of a Python dict comprehension (later pairs overwrite earlier ones
that share a key). -/
def dictOfPairs (ps : List (List Nat × PyVal)) : List (List Nat × PyVal) :=
  ps.foldl (fun acc p => dictInsert acc p.1 p.2) []

/-! ## `normalize_keys` (src/lib/json_utils.py lines 40-49) -/

mutual

/-- `normalize_keys`: recursively convert dict keys with `to_camel_case`; lists
element-wise; scalars unchanged.  The dict branch is the comprehension
`{to_camel_case(k): normalize_keys(v) for k, v in obj.items()}`. -/
def normalize_keys : PyVal → PyVal
  | .list xs => .list (normKeysList xs)
  | .dict kvs => .dict (dictOfPairs (normKeysPairs kvs))
  | v => v

/-- `normalize_keys` mapped over list elements. -/
def normKeysList : List PyVal → List PyVal
  | [] => []
  | x :: xs => normalize_keys x :: normKeysList xs

/-- The pair sequence of the dict comprehension, before dict semantics collapses
duplicate normalized keys. -/
def normKeysPairs : List (List Nat × PyVal) → List (List Nat × PyVal)
  | [] => []
  | (k, v) :: rest => (toCamelCase k, normalize_keys v) :: normKeysPairs rest

end

example :
    normalize_keys (.dict [(pstr "Sale_Price", .int 3), (pstr "b", .list [.dict [(pstr "X_y", .none)]])])
      = .dict [(pstr "salePrice", .int 3), (pstr "b", .list [.dict [(pstr "xY", .none)]])] := by
  rfl

-- Two distinct raw keys can collapse to one normalized key.
example :
    normalize_keys (.dict [(pstr "a_b", .int 1), (pstr "aB", .int 2)])
      = .dict [(pstr "aB", .int 2)] := by rfl

/-! ## Numeric and string conversions (Python builtins, as the source uses them) -/

/-- Decimal digits to a number (`l` is assumed to hold digit code points). -/
def digitsToNat (l : List Nat) : Nat := l.foldl (fun a c => a * 10 + (c - 48)) 0

/-- Decimal digit characters of `n`, most significant first (fuel-structured so
that it reduces in the kernel; the fuel `n+1` always suffices). -/
def natStrGo : Nat → Nat → List Nat → List Nat
  | 0, _, acc => acc
  | fuel + 1, n, acc =>
    if n < 10 then (48 + n) :: acc
    else natStrGo fuel (n / 10) ((48 + n % 10) :: acc)

/-- Python `str()` of a natural number. -/
def natStr (n : Nat) : List Nat := natStrGo (n + 1) n []

/-- Python `str()` of an integer. -/
def intStr (n : Int) : List Nat :=
  if n < 0 then 45 :: natStr n.natAbs else natStr n.natAbs

/-- Python `float(string)` on the number grammar this program's data uses:
optional surrounding whitespace, optional sign, digits with an optional decimal
point (`"200000"`, `"1.5"`, `".5"`, `"3."`).  Exponents, `inf` and `nan` are not
modelled.  `none` models `ValueError`. -/
def parseFloatStr (l0 : List Nat) : Option Frac :=
  let l := pyStrip l0
  let p : Int × List Nat :=
    match l with
    | 45 :: rest => (-1, rest)
    | 43 :: rest => (1, rest)
    | _ => (1, l)
  let ip := p.2.takeWhile isAsciiDigit
  let rest := p.2.dropWhile isAsciiDigit
  match rest with
  | [] => if ip = [] then Option.none else some (Frac.ofInt (p.1 * digitsToNat ip))
  | 46 :: fp =>
    if fp.all isAsciiDigit ∧ (ip ≠ [] ∨ fp ≠ []) then
      some (Frac.norm (p.1 * (digitsToNat ip * 10 ^ fp.length + digitsToNat fp))
        (10 ^ fp.length))
    else Option.none
  | _ => Option.none

/-- Python `int(string)`: optional surrounding whitespace, optional sign, then a
nonempty run of decimal digits; anything else raises `ValueError` (`none`). -/
def parseIntStr (l0 : List Nat) : Option Int :=
  let l := pyStrip l0
  let p : Int × List Nat :=
    match l with
    | 45 :: rest => (-1, rest)
    | 43 :: rest => (1, rest)
    | _ => (1, l)
  if p.2 ≠ [] ∧ p.2.all isAsciiDigit then some (p.1 * digitsToNat p.2) else Option.none

/-- Python `int(v)` on the values the enricher can feed it: ints pass through,
bools are 0/1, floats truncate toward zero, strings go through `parseIntStr`;
`None`, NaN and containers raise (`TypeError`/`ValueError`). -/
def pyIntOf : PyVal → Except Unit Int
  | .int n => .ok n
  | .bool b => .ok (if b then 1 else 0)
  | .float q => .ok (q.num / (q.den : Int))
  | .str s =>
    match parseIntStr s with
    | some n => .ok n
    | Option.none => .error ()
  | _ => .error ()

/-- `", "`-join used by the container repr/serialization models. -/
def commaJoin (ls : List (List Nat)) : List Nat := List.intercalate (pstr ", ") ls

/-- Decimal digits of the fractional part `r/d` by long division (fuel-bounded;
only a model device for floats, see `floatStr`). -/
def fracDigitsGo : Nat → Nat → Nat → List Nat
  | 0, _, _ => []
  | fuel + 1, r, d =>
    if r = 0 then []
    else (48 + r * 10 / d) :: fracDigitsGo fuel (r * 10 % d) d

/-- Python `str()`/`repr()` of a float under the exact-rational model: integral
values print as `N.0`, other values as a truncated decimal expansion.  (Binary
floating-point shortest-roundtrip repr cannot be reproduced under ℚ; no claim
observes a non-integral float repr.) -/
def floatStr (q : Frac) : List Nat :=
  if q.den = 1 then intStr q.num ++ pstr ".0"
  else (if q.num < 0 then [45] else []) ++
    natStr (q.num.natAbs / q.den) ++ [46] ++ fracDigitsGo 17 (q.num.natAbs % q.den) q.den

/-- `str()` of the scalar kinds. -/
def pyStrScalar : PyVal → List Nat
  | .none => pstr "None"
  | .nan => pstr "nan"
  | .bool b => if b then pstr "True" else pstr "False"
  | .int n => intStr n
  | .float q => floatStr q
  | .str s => s
  | _ => []

mutual

/-- Python `repr()` (strings quoted, containers as literals; escape handling is
simplified — no claim observes a repr of a string containing quotes). -/
def pyRepr : PyVal → List Nat
  | .str s => 39 :: s ++ [39]
  | .list xs => 91 :: commaJoin (pyReprList xs) ++ [93]
  | .dict kvs => 123 :: commaJoin (pyReprPairs kvs) ++ [125]
  | v => pyStrScalar v

/-- `repr` of list elements. -/
def pyReprList : List PyVal → List (List Nat)
  | [] => []
  | x :: xs => pyRepr x :: pyReprList xs

/-- `repr` of dict entries, `key: value`. -/
def pyReprPairs : List (List Nat × PyVal) → List (List Nat)
  | [] => []
  | (k, v) :: rest => (39 :: k ++ [39] ++ pstr ": " ++ pyRepr v) :: pyReprPairs rest

end

/-- Python `str(v)`: the string itself for strings, `repr`-style otherwise. -/
def pyStrOf : PyVal → List Nat
  | .str s => s
  | v => pyRepr v

/-! ## pandas helpers used by the enrichers -/

/-- `bool(pd.isna(v))`, as used in `if pd.isna(v): ...` and in `is_scalar`.
Modelled after pandas ≥ 2 with current numpy: scalar `None`/NaN are NA and every
other scalar (dicts included — pandas treats them as scalars here) is not; a
list input makes `pd.isna` return an element-wise boolean ndarray, whose truth
value is that of its single element when it has exactly one and otherwise raises
`ValueError` ("truth value of an array ... is ambiguous"). -/
def pdIsnaTruthy : PyVal → Except Unit Bool
  | .none => .ok true
  | .nan => .ok true
  | .list [x] =>
    .ok (match x with
      | .none => true
      | .nan => true
      | _ => false)
  | .list _ => .error ()
  | _ => .ok false

/-- `_num` (src/main.py lines 326-337): safely convert a value to a float,
handling currency symbols and commas.  `float(...)` on the cleaned string is
modelled by `parseFloatStr`.  Note Python's `bool` is a subclass of `int`, so
booleans take the numeric branch. -/
def _num (s : PyVal) : Except Unit (Option Frac) := do
  let na ← pdIsnaTruthy s
  if na then return Option.none
  match s with
  | .int n => return some (Frac.ofInt n)
  | .bool b => return some (Frac.ofInt (if b then 1 else 0))
  | .float q => return some q
  | .str cs => return parseFloatStr (cs.filter (fun c => c ≠ 36 ∧ c ≠ 44))
  | _ => return Option.none

/-- `pd.to_datetime(string, errors="coerce")` on the date strings in this
program's data: an ISO `YYYY-MM-DD` string parses to a timestamp (encoded so
that comparison of encodings is chronological order), everything else coerces to
NaT (`none`). -/
def parseIsoDate (l : List Nat) : Option Int :=
  match l with
  | [y1, y2, y3, y4, 45, m1, m2, 45, d1, d2] =>
    if [y1, y2, y3, y4, m1, m2, d1, d2].all isAsciiDigit then
      let m := digitsToNat [m1, m2]
      let d := digitsToNat [d1, d2]
      if 1 ≤ m ∧ m ≤ 12 ∧ 1 ≤ d ∧ d ≤ 31 then
        some (digitsToNat [y1, y2, y3, y4] * 10000 + m * 100 + d)
      else Option.none
    else Option.none
  | _ => Option.none

/-- `_to_dt` (src/main.py lines 339-343): `None` for falsy or NA input, else
`pd.to_datetime(s, errors="coerce")`.  The pandas call is modelled by
`parseIsoDate` for strings (unparseable → NaT), raw epoch interpretation for
numbers, NaT for booleans; passing a list or dict makes the datetime assembly
raise even under `errors="coerce"`.  `none` models both `None` and NaT (both are
falsy where this result is consumed). -/
def _to_dt (s : PyVal) : Except Unit (Option Int) := do
  if !pyTruthy s then return Option.none
  let na ← pdIsnaTruthy s
  if na then return Option.none
  match s with
  | .str cs => return parseIsoDate cs
  | .int n => return some n
  | .float q => return some (q.num.fdiv q.den)
  | .bool _ => return Option.none
  | _ => .error ()

/-- `pd.Timestamp.min` (the fallback sort key for unparseable sale dates),
below every encoded date. -/
def minTimestamp : Int := -9223372036854775808

/-- The `max` key `_to_dt(s.get("saledate")) or pd.Timestamp.min` (a `None`/NaT
result is falsy and is replaced by the minimum timestamp). -/
def saleKey (s : PyVal) : Except Unit Int := do
  let d ← _to_dt (pyGet s (pstr "saledate"))
  match d with
  | some t => return t
  | Option.none => return minTimestamp

/-- Python `max(xs, key=f)` worker: scan with the current best, replacing it only
on a strictly larger key (so the first maximal element wins ties). -/
def pyMaxGo (f : PyVal → Except Unit Int) (best : PyVal) (kb : Int) :
    List PyVal → Except Unit PyVal
  | [] => .ok best
  | x :: xs => do
    let kx ← f x
    if kb < kx then pyMaxGo f x kx xs else pyMaxGo f best kb xs

/-- Python `max(xs, key=f, default=None)`: `none` on an empty sequence, else the
first element with maximal key; a key failure propagates. -/
def pyMaxByKey (f : PyVal → Except Unit Int) : List PyVal → Except Unit (Option PyVal)
  | [] => .ok Option.none
  | x :: xs => do
    let kx ← f x
    let b ← pyMaxGo f x kx xs
    return some b

/-- Stable insertion into a key-sorted list: an element goes after every element
whose key is ≤ its own, as Python's stable `sorted` does. -/
def insertByKey (x : Int × PyVal) : List (Int × PyVal) → List (Int × PyVal)
  | [] => [x]
  | y :: ys => if x.1 < y.1 then x :: y :: ys else y :: insertByKey x ys

/-- Python `sorted(l, key=...)` after the keys have been computed (stable). -/
def sortByKey (l : List (Int × PyVal)) : List (Int × PyVal) :=
  l.foldl (fun acc x => insertByKey x acc) []

/-- The `sorted` key `int(h.get("TaxYear") or h.get("taxYear") or 0)` of the
history summarizer. -/
def histSortKey (h : PyVal) : Except Unit Int :=
  pyIntOf (pyOr (pyOr (pyGet h (pstr "TaxYear")) (pyGet h (pstr "taxYear"))) (.int 0))

/-- Key computation for every history entry (Python computes all sort keys; a
failure anywhere propagates). -/
def keyedHist : List PyVal → Except Unit (List (Int × PyVal))
  | [] => .ok []
  | h :: hs => do
    let k ← histSortKey h
    let rest ← keyedHist hs
    return (k, h) :: rest

/-- Is the value a Python dict? (`isinstance(v, dict)`). -/
def isDictV : PyVal → Bool
  | .dict _ => true
  | _ => false

/-- `None` ↦ `None`, `some q` ↦ float, for storing an optional number. -/
def optFloat : Option Frac → PyVal
  | some q => .float q
  | Option.none => .none

/-! ## `enrich_rivco_row` (src/main.py lines 345-384) -/

/-- `enrich_rivco_row`: summarize nested `sales` and `history` for a RivCoView
row.  The output dict `out` is modelled as the ordered list of its (key, value)
entries in assignment order (each key is assigned at most once per run). -/
def enrich_rivco_row (row : PyVal) : Except Unit (List (List Nat × PyVal)) := do
  let sales := pyGetD row (pstr "sales") (.list [])
  let out1 ←
    match sales with
    | .list items =>
      if items.isEmpty then pure [(pstr "salesCount", PyVal.int 0)]
      else do
        let sales_dicts := items.filter isDictV
        let base := [(pstr "salesCount", PyVal.int sales_dicts.length)]
        let last_sale ← pyMaxByKey saleKey sales_dicts
        match last_sale with
        | Option.none => pure base
        | some ls =>
          if pyTruthy ls then do
            let price ← _num (pyOr (pyGet ls (pstr "SalePrice")) (pyGet ls (pstr "salePrice")))
            pure (base ++
              [(pstr "lastSaleDate", pyGet ls (pstr "saledate")),
               (pstr "lastSalePrice", optFloat price),
               (pstr "lastSaleQualified",
                 pyOr (pyGet ls (pstr "Qualified")) (pyGet ls (pstr "qualified")))])
          else pure base
    | _ => pure [(pstr "salesCount", PyVal.int 0)]
  let hist := pyGetD row (pstr "history") (.list [])
  let out2 ←
    match hist with
    | .list hitems =>
      if hitems.isEmpty then pure []
      else do
        let keyed ← keyedHist (hitems.filter isDictV)
        match (sortByKey keyed).reverse with
        | [] => pure []
        | latest :: restRev => do
          let latest_val ← _num (pyOr (pyGet latest.2 (pstr "AssessedTot"))
            (pyGet latest.2 (pstr "assessedTot")))
          let prev_val ←
            match restRev.head? with
            | Option.none => pure Option.none
            | some p => _num (pyOr (pyGet p.2 (pstr "AssessedTot"))
                (pyGet p.2 (pstr "assessedTot")))
          let base := [(pstr "assessedYearLatest",
              PyVal.str (pyStrOf (pyOr (pyGet latest.2 (pstr "TaxYear"))
                (pyGet latest.2 (pstr "taxYear"))))),
            (pstr "assessedLatest", optFloat latest_val),
            (pstr "assessedPrev", optFloat prev_val)]
          match latest_val, prev_val with
          | some lv, some pv =>
            if pv.num ≠ 0 then
              pure (base ++ [(pstr "assessedYoYDelta", PyVal.float (Frac.sub lv pv)),
                (pstr "assessedYoYPct",
                  PyVal.float (Frac.mul (Frac.div (Frac.sub lv pv) pv) (Frac.ofInt 100)))])
            else pure base
          | _, _ => pure base
    | _ => pure []
  return out1 ++ out2

-- C6 sanity: the spec's sales example.
example :
    enrich_rivco_row (.dict [(pstr "sales", .list
      [.dict [(pstr "saledate", .str (pstr "2020-01-01")), (pstr "SalePrice", .str (pstr "$100,000"))],
       .dict [(pstr "saledate", .str (pstr "2022-06-01")), (pstr "SalePrice", .str (pstr "200000"))]])])
    = .ok [(pstr "salesCount", .int 2),
           (pstr "lastSaleDate", .str (pstr "2022-06-01")),
           (pstr "lastSalePrice", .float (Frac.ofInt 200000)),
           (pstr "lastSaleQualified", .none)] := by rfl

-- C6 sanity: the spec's history example.
example :
    enrich_rivco_row (.dict [(pstr "history", .list
      [.dict [(pstr "TaxYear", .int 2021), (pstr "AssessedTot", .int 100000)],
       .dict [(pstr "TaxYear", .int 2022), (pstr "AssessedTot", .int 110000)]])])
    = .ok [(pstr "salesCount", .int 0),
           (pstr "assessedYearLatest", .str (pstr "2022")),
           (pstr "assessedLatest", .float (Frac.ofInt 110000)),
           (pstr "assessedPrev", .float (Frac.ofInt 100000)),
           (pstr "assessedYoYDelta", .float (Frac.ofInt 10000)),
           (pstr "assessedYoYPct", .float (Frac.ofInt 10))] := by rfl

-- C1 sanity: a multi-element list where a scalar is expected raises.
example :
    enrich_rivco_row (.dict [(pstr "sales", .list
      [.dict [(pstr "saledate", .str (pstr "2020-01-01")),
              (pstr "SalePrice", .list [.int 1, .int 2])]])])
    = .error () := by rfl

-- C2 sanity: an unparseable truthy tax year raises in the sort key.
example :
    enrich_rivco_row (.dict [(pstr "history", .list
      [.dict [(pstr "TaxYear", .str (pstr "abc"))]])])
    = .error () := by rfl

/-! ## `extract_amenities` (src/main.py lines 219-261) -/

/-- One left-to-right, non-overlapping pass of `name.replace('  ', ' ')`. -/
def replaceDoubleSpace : List Nat → List Nat
  | 32 :: 32 :: rest => 32 :: replaceDoubleSpace rest
  | c :: rest => c :: replaceDoubleSpace rest
  | [] => []

/-- Worker for `pyTitle`; the flag records whether the previous character was a
(cased) letter. -/
def pyTitleGo : Bool → List Nat → List Nat
  | _, [] => []
  | prevAlpha, c :: rest =>
    if isAsciiAlpha c then
      (if prevAlpha then pyLower c else pyUpper c) :: pyTitleGo true rest
    else c :: pyTitleGo false rest

/-- Python `str.title()`: the first letter of every word is uppercased and the
following letters lowercased, a word starting after any non-letter. -/
def pyTitle (l : List Nat) : List Nat := pyTitleGo false l

/-- `to_readable` inside `extract_amenities`: underscores to spaces, camel-hump
space insertion (the same regex as `_CAMEL_SPLIT`), one pass replacing double
spaces, strip, then title-case. -/
def toReadable (name : List Nat) : List Nat :=
  pyTitle (pyStrip (replaceDoubleSpace
    (camelSplit (name.map (fun c => if c = 95 then 32 else c)))))

/-- `category in {'amenity', 'infrastructure', 'location'}`: set membership
hashes the category first, so an unhashable value (list/dict) raises
`TypeError`; any other non-string value is hashable and simply not a member. -/
def categoryMem : PyVal → Except Unit Bool
  | .str s =>
    .ok (decide (s = pstr "amenity") || decide (s = pstr "infrastructure") ||
      decide (s = pstr "location"))
  | .list _ => .error ()
  | .dict _ => .error ()
  | _ => .ok false

/-- `value is None`. -/
def isNoneV : PyVal → Bool
  | .none => true
  | _ => false

/-- The `continue` test `isinstance(value, str) and value.strip() == ''`. -/
def isEmptyStrV : PyVal → Bool
  | .str s => decide (pyStrip s = [])
  | _ => false

/-- The loop body of `extract_amenities` over detail entries, accumulating the
`amenities` dict. -/
def amenLoop : List PyVal → List (List Nat × PyVal) → Except Unit (List (List Nat × PyVal))
  | [], acc => .ok acc
  | d :: rest, acc =>
    match d with
    | .dict _ => do
      let category := pyGetD d (pstr "category") (.str [])
      let detail_type := pyStrOf (pyOr (pyGetD d (pstr "type") (.str [])) (.str []))
      let value := pyGet d (pstr "value")
      let inCats ← categoryMem category
      if inCats && !isNoneV value && decide (detail_type ≠ []) then
        let value2 := match value with
          | .bool b => PyVal.str (if b then pstr "Yes" else pstr "No")
          | v => v
        if isEmptyStrV value2 then amenLoop rest acc
        else
          amenLoop rest (dictInsert acc (pstr "amenity_" ++ toReadable detail_type) value2)
      else amenLoop rest acc
    | _ => amenLoop rest acc

/-- `extract_amenities`: flat `amenity_<ReadableName>` columns from the details
array, looked up under the raw column name first and the normalized one second;
a non-list details value yields the empty dict. -/
def extract_amenities (row : PyVal) : Except Unit (List (List Nat × PyVal)) :=
  let details0 := pyGet row (pstr "payload.relationships.details")
  let details := match details0 with
    | .none => pyGet row (pstr "Details")
    | v => v
  match details with
  | .list ds => amenLoop ds []
  | _ => .ok []

-- C10 sanity.
example :
    extract_amenities (.dict [(pstr "payload.relationships.details", .list
      [.dict [(pstr "category", .str (pstr "amenity")), (pstr "type", .str (pstr "golfCourse")),
              (pstr "value", .bool true)],
       .dict [(pstr "category", .str (pstr "other")), (pstr "type", .str (pstr "x")),
              (pstr "value", .bool true)]])])
    = .ok [(pstr "amenity_Golf Course", .str (pstr "Yes"))] := by rfl

/-! ## `json.loads` model and `flatten_records_maybe` (src/main.py lines 74-96) -/

/-- Skip JSON whitespace. -/
def jsonWs (l : List Nat) : List Nat :=
  l.dropWhile (fun c => c = 32 || c = 9 || c = 10 || c = 13)

/-- JSON string escapes (`\uXXXX` is not modelled; no data in the claims uses it). -/
def jsonEscChar (e : Nat) : Option Nat :=
  if e = 34 then some 34 else if e = 92 then some 92 else if e = 47 then some 47
  else if e = 110 then some 10 else if e = 116 then some 9 else if e = 114 then some 13
  else if e = 98 then some 8 else if e = 102 then some 12 else Option.none

/-- Parse the body of a JSON string after the opening quote; returns the decoded
code points and the remaining input. -/
def parseJsonStr : List Nat → Option (List Nat × List Nat)
  | [] => Option.none
  | 34 :: rest => some ([], rest)
  | 92 :: e :: rest =>
    match jsonEscChar e with
    | some c => (parseJsonStr rest).map (fun p => (c :: p.1, p.2))
    | Option.none => Option.none
  | c :: rest => (parseJsonStr rest).map (fun p => (c :: p.1, p.2))

/-- Parse a JSON number: optional minus, digits, optional fraction (exponents
are not modelled; no data in the claims uses them).  Integral numbers load as
Python ints, fractional ones as floats. -/
def parseJsonNum (l : List Nat) : Option (PyVal × List Nat) :=
  let p : Bool × List Nat := match l with
    | 45 :: r => (true, r)
    | _ => (false, l)
  let ip := p.2.takeWhile isAsciiDigit
  let r1 := p.2.dropWhile isAsciiDigit
  if ip = [] then Option.none
  else
    match r1 with
    | 46 :: r2 =>
      let fp := r2.takeWhile isAsciiDigit
      let r3 := r2.dropWhile isAsciiDigit
      if fp = [] then Option.none
      else some (.float (Frac.norm ((if p.1 then -1 else 1) *
          (digitsToNat ip * 10 ^ fp.length + digitsToNat fp)) (10 ^ fp.length)), r3)
    | _ => some (.int ((if p.1 then -1 else 1) * digitsToNat ip), r1)

mutual

/-- Recursive-descent JSON value parser (fuel-structured; `jsonLoads` supplies
enough fuel for any input). -/
def parseJsonVal : Nat → List Nat → Option (PyVal × List Nat)
  | 0, _ => Option.none
  | fuel + 1, l =>
    match jsonWs l with
    | 110 :: 117 :: 108 :: 108 :: rest => some (.none, rest)
    | 116 :: 114 :: 117 :: 101 :: rest => some (.bool true, rest)
    | 102 :: 97 :: 108 :: 115 :: 101 :: rest => some (.bool false, rest)
    | 34 :: rest => (parseJsonStr rest).map (fun p => (PyVal.str p.1, p.2))
    | 91 :: rest =>
      (match jsonWs rest with
       | 93 :: r2 => some (.list [], r2)
       | l2 => parseJsonArrItems fuel l2 [])
    | 123 :: rest =>
      (match jsonWs rest with
       | 125 :: r2 => some (.dict [], r2)
       | l2 => parseJsonObjItems fuel l2 [])
    | l' => parseJsonNum l'

/-- Array elements after `[`. -/
def parseJsonArrItems : Nat → List Nat → List PyVal → Option (PyVal × List Nat)
  | 0, _, _ => Option.none
  | fuel + 1, l, acc =>
    match parseJsonVal fuel l with
    | Option.none => Option.none
    | some (v, rest) =>
      match jsonWs rest with
      | 44 :: rest2 => parseJsonArrItems fuel rest2 (acc ++ [v])
      | 93 :: rest2 => some (.list (acc ++ [v]), rest2)
      | _ => Option.none

/-- Object entries after `{` (duplicate keys overwrite, as Python dicts do). -/
def parseJsonObjItems : Nat → List Nat → List (List Nat × PyVal) →
    Option (PyVal × List Nat)
  | 0, _, _ => Option.none
  | fuel + 1, l, acc =>
    match jsonWs l with
    | 34 :: rest =>
      (match parseJsonStr rest with
       | Option.none => Option.none
       | some (k, rest2) =>
         match jsonWs rest2 with
         | 58 :: rest3 =>
           (match parseJsonVal fuel rest3 with
            | Option.none => Option.none
            | some (v, rest4) =>
              match jsonWs rest4 with
              | 44 :: rest5 => parseJsonObjItems fuel rest5 (dictInsert acc k v)
              | 125 :: rest5 => some (.dict (dictInsert acc k v), rest5)
              | _ => Option.none)
         | _ => Option.none)
    | _ => Option.none

end

/-- `json.loads`: a full-input parse; trailing non-whitespace raises
`JSONDecodeError` (`none`). -/
def jsonLoads (l : List Nat) : Option PyVal :=
  match parseJsonVal (l.length + 1) l with
  | some (v, rest) => if jsonWs rest = [] then some v else Option.none
  | Option.none => Option.none

/-- The per-item collection of `flatten_records_maybe`'s loop. -/
def flattenItems : List PyVal → List PyVal
  | [] => []
  | item :: rest =>
    (match item with
     | .dict d => [PyVal.dict d]
     | .list subs => subs.filter isDictV
     | .str s =>
       (match jsonLoads s with
        | some (.dict d) => [PyVal.dict d]
        | some (.list l) => l.filter isDictV
        | _ => [])
     | _ => []) ++ flattenItems rest

/-- `flatten_records_maybe` (src/main.py lines 74-96): flatten list-of-dict,
list-of-list and list-of-JSON-string shapes; a single dict is promoted to a
one-element list; anything else yields the empty list; malformed elements are
silently dropped. -/
def flatten_records_maybe (data : PyVal) : List PyVal :=
  match data with
  | .list items => flattenItems items
  | .dict d => [.dict d]
  | _ => []

-- C9 sanity.
example :
    flatten_records_maybe (.list
      [.dict [(pstr "a", .int 1)],
       .list [.dict [(pstr "b", .int 2)]],
       .str (pstr "not json"),
       .str (pstr "\x7b\x22c\x22:3\x7d"),
       .str (pstr "[\x7b\x22d\x22:4\x7d]")])
    = [.dict [(pstr "a", .int 1)], .dict [(pstr "b", .int 2)],
       .dict [(pstr "c", .int 3)], .dict [(pstr "d", .int 4)]] := by rfl

example : flatten_records_maybe (.dict [(pstr "x", .int 1)]) = [.dict [(pstr "x", .int 1)]] := by rfl
example : flatten_records_maybe .none = [] := by rfl

/-! ## `is_scalar`, `safe_json_dumps` and `sanitize_for_arrow`
(src/main.py lines 98-168) -/

/-- `is_scalar` (src/main.py lines 98-123).  `None`, NA values and plain
scalars are scalar; lists, tuples, dicts and anything with a length are not.
The `pd.isna(v)` probe gives the function its two quirks, both modelled: a
one-element list whose element is NA is reported scalar (the size-1 boolean
ndarray is truthy), and any other list makes `pd.isna` raise, which the
surrounding `except` turns into `False`. -/
def is_scalar : PyVal → Bool
  | .list l =>
    match l with
    | [x] =>
      (match x with
       | .none => true
       | .nan => true
       | _ => false)
    | _ => false
  | .dict _ => false
  | _ => true

/-- JSON string escaping for `json.dumps` (quotes, backslash and the common
control characters; `ensure_ascii=False` passes other characters through). -/
def jsonEscOut (s : List Nat) : List Nat :=
  (s.map (fun c =>
    if c = 34 then [92, 34] else if c = 92 then [92, 92]
    else if c = 10 then [92, 110] else if c = 9 then [92, 116]
    else if c = 13 then [92, 114] else [c])).flatten

mutual

/-- `json.dumps(v, ensure_ascii=False)` with default separators.  Every `PyVal`
is serializable (NaN prints as `NaN` under the default `allow_nan=True`), so the
`except` fallback of `safe_json_dumps` never triggers in this model (its
ndarray/Series branches concern values the pipeline cannot produce). -/
def jsonDumps : PyVal → List Nat
  | .none => pstr "null"
  | .nan => pstr "NaN"
  | .bool b => if b then pstr "true" else pstr "false"
  | .int n => intStr n
  | .float q => floatStr q
  | .str s => 34 :: jsonEscOut s ++ [34]
  | .list xs => 91 :: commaJoin (jsonDumpsList xs) ++ [93]
  | .dict kvs => 123 :: commaJoin (jsonDumpsPairs kvs) ++ [125]

/-- `json.dumps` of list elements. -/
def jsonDumpsList : List PyVal → List (List Nat)
  | [] => []
  | x :: xs => jsonDumps x :: jsonDumpsList xs

/-- `json.dumps` of object entries. -/
def jsonDumpsPairs : List (List Nat × PyVal) → List (List Nat)
  | [] => []
  | (k, v) :: rest =>
    (34 :: jsonEscOut k ++ [34] ++ pstr ": " ++ jsonDumps v) :: jsonDumpsPairs rest

end

/-- `safe_json_dumps` (src/main.py lines 125-135): JSON text of a value. -/
def safe_json_dumps (v : PyVal) : List Nat := jsonDumps v

/-- Is a cell NA for pandas (`Series.dropna`, `notna`): `None` or NaN. -/
def isNACell : PyVal → Bool
  | .none => true
  | .nan => true
  | _ => false

/-- `pd.api.types.is_numeric_dtype` for a column built from JSON-derived
values: the constructor infers an int64/float64 dtype exactly when every value
is an int, float, NaN or None with at least one of the first three (an all-None
column stays object). -/
def colNumericDtype (c : List PyVal) : Bool :=
  !c.isEmpty &&
  c.all (fun v => match v with
    | .int _ => true | .float _ => true | .nan => true | .none => true | _ => false) &&
  c.any (fun v => match v with
    | .int _ => true | .float _ => true | .nan => true | _ => false)

/-- `pd.api.types.is_bool_dtype`: an all-boolean column. -/
def colBoolDtype (c : List PyVal) : Bool :=
  !c.isEmpty && c.all (fun v => match v with | .bool _ => true | _ => false)

/-- `pd.api.types.is_string_dtype`, modelled after pandas ≥ 2.0: for an
object-dtype column the elements are inspected and the answer is whether all of
them are strings. -/
def colStringDtype (c : List PyVal) : Bool :=
  !c.isEmpty && c.all (fun v => match v with | .str _ => true | _ => false)

/-- The dtype test of the first loop
(`is_numeric_dtype or is_bool_dtype or is_string_dtype`). -/
def colSkipDtype (c : List PyVal) : Bool :=
  colNumericDtype c || colBoolDtype c || colStringDtype c

/-- The safe-column test of the second loop; `is_datetime64_any_dtype` is also
accepted there, but no column of this JSON-derived model can be datetime. -/
def colSafeDtype (c : List PyVal) : Bool :=
  colNumericDtype c || colBoolDtype c || colStringDtype c

/-- `pd.to_numeric(·, errors='coerce')` on one cell: numbers and booleans
convert, numeric strings parse, everything else (None, NaN, malformed strings,
containers) coerces to NaN (`none`). -/
def toNumericCell : PyVal → Option Frac
  | .int n => some (.ofInt n)
  | .float q => some q
  | .bool b => some (.ofInt (if b then 1 else 0))
  | .str s => parseFloatStr s
  | _ => Option.none

/-- The per-column body of `sanitize_for_arrow`'s first loop: skip columns that
are already numeric/bool/string dtype; otherwise coerce the column to numeric
when strictly more than 90% of the non-null original values coerce (the source
compares `coerced.notna().sum() / len(s.dropna()) > 0.9`), and otherwise
JSON-serialize only the non-scalar values. -/
def cleanCol (c : List PyVal) : List PyVal :=
  if colSkipDtype c then c
  else
    if 0 < (c.filter (fun v => !isNACell v)).length ∧
        Frac.blt (Frac.norm 9 10)
          (Frac.norm (((c.map toNumericCell).filter (fun o => o.isSome)).length)
            ((c.filter (fun v => !isNACell v)).length)) then
      (c.map toNumericCell).map (fun o => match o with
        | some q => PyVal.float q
        | Option.none => PyVal.nan)
    else c.map (fun v => if is_scalar v then v else .str (safe_json_dumps v))

/-- A DataFrame: ordered columns, each a name with its cells. -/
structure PyDF where
  cols : List (List Nat × List PyVal)

/-- `df.empty`: an axis of length zero. -/
def dfEmpty (df : PyDF) : Bool :=
  df.cols.isEmpty || df.cols.any (fun p => p.2.isEmpty)

/-- Python's `l[:n]` (a negative bound counts from the end, clamped at zero). -/
def pySliceTo {α : Type} (n : Int) (l : List α) : List α :=
  if 0 ≤ n then l.take n.toNat else l.take ((l.length : Int) + n).toNat

/-- The first loop of `sanitize_for_arrow` applied to every column. -/
def cleanedCols (df : PyDF) : List (List Nat × List PyVal) :=
  df.cols.map (fun p => (p.1, cleanCol p.2))

/-- `safe_cols`: names of the columns whose cleaned dtype is renderable. -/
def safeColNames (cleaned : List (List Nat × List PyVal)) : List (List Nat) :=
  (cleaned.filter (fun p => colSafeDtype p.2)).map Prod.fst

/-- The preferred columns present among the safe ones, in the order given. -/
def preferPart (prefer_cols : Option (List (List Nat))) (safe : List (List Nat)) :
    List (List Nat) :=
  match prefer_cols with
  | some pc => pc.filter (fun c => decide (c ∈ safe))
  | Option.none => []

/-- `ordered_cols`: the preferred part, then the remaining safe columns in
original order (the membership test is against the pre-extend list, exactly as
the list comprehension in the source evaluates it). -/
def orderedCols (pp safe : List (List Nat)) : List (List Nat) :=
  pp ++ safe.filter (fun c => !decide (c ∈ pp))

/-- Column selection `cleaned[names]` by label list. -/
def selectCols (cleaned : List (List Nat × List PyVal)) (names : List (List Nat)) :
    List (List Nat × List PyVal) :=
  names.filterMap (fun n => (cleaned.find? (fun p => p.1 = n)).map (fun p => (n, p.2)))

/-- `sanitize_for_arrow` (src/main.py lines 137-168): clean every column, keep
the safely-renderable ones, order them preferred-first, truncate to `max_cols`;
with no safe or preferred column at all, fall back to the first `max_cols`
columns of the cleaned table. -/
def sanitize_for_arrow (df : PyDF) (prefer_cols : Option (List (List Nat)))
    (max_cols : Int) : PyDF :=
  if dfEmpty df then df
  else
    if orderedCols (preferPart prefer_cols (safeColNames (cleanedCols df)))
        (safeColNames (cleanedCols df)) ≠ [] then
      ⟨selectCols (cleanedCols df)
        (pySliceTo max_cols (orderedCols
          (preferPart prefer_cols (safeColNames (cleanedCols df)))
          (safeColNames (cleanedCols df))))⟩
    else ⟨pySliceTo max_cols (cleanedCols df)⟩

-- C7 sanity: 75% coercible is not converted; all-scalar values stay unchanged.
example :
    cleanCol [.int 1, .int 2, .str (pstr "bad"), .int 4]
      = [.int 1, .int 2, .str (pstr "bad"), .int 4] := by rfl

-- C8 sanity, main branch: preferred safe column first, then the rest, truncated.
example :
    (sanitize_for_arrow ⟨[(pstr "a", [.int 1]), (pstr "b", [.str (pstr "s")]),
        (pstr "c", [.int 2])]⟩ (some [pstr "c"]) 2).cols.map Prod.fst
      = [pstr "c", pstr "a"] := by rfl

-- C8 sanity, fallback branch: with no safe column the preferred column "p"
-- appears after the non-preferred "x".
example :
    (sanitize_for_arrow ⟨[(pstr "x", [.int 1, .str (pstr "bad")]),
        (pstr "p", [.int 2, .str (pstr "bad")])]⟩ (some [pstr "p"]) 20).cols.map Prod.fst
      = [pstr "x", pstr "p"] := by rfl

/-! ## Theory of `toCamelCase`: character-class lemmas -/

theorem alnum_not_ws {c : Nat} (h : isAsciiAlnum c = true) : isPyWs c = false := by
  simp [isAsciiAlnum, isAsciiDigit, isAsciiUpperAlpha, isAsciiLowerAlpha] at h
  simp [isPyWs]
  omega

theorem pyLower_lowerDigit {c : Nat} (h : isAsciiAlnum c = true) :
    isLowerDigit (pyLower c) = true := by
  simp [isAsciiAlnum, isAsciiDigit, isAsciiUpperAlpha, isAsciiLowerAlpha] at h
  simp [pyLower, isLowerDigit, isAsciiUpperAlpha, isAsciiLowerAlpha, isAsciiDigit]
  split_ifs <;> omega

theorem lowerDigit_alnum {c : Nat} (h : isLowerDigit c = true) : isAsciiAlnum c = true := by
  simp [isLowerDigit, isAsciiLowerAlpha, isAsciiDigit] at h
  simp [isAsciiAlnum, isAsciiDigit, isAsciiUpperAlpha, isAsciiLowerAlpha]
  omega

theorem pyLower_id_of_lowerDigit {c : Nat} (h : isLowerDigit c = true) : pyLower c = c := by
  simp [isLowerDigit, isAsciiLowerAlpha, isAsciiDigit] at h
  simp [pyLower, isAsciiUpperAlpha]
  omega

theorem pyUpper_id_of_upper {c : Nat} (h : isAsciiUpperAlpha c = true) : pyUpper c = c := by
  simp [isAsciiUpperAlpha] at h
  simp [pyUpper, isAsciiLowerAlpha]
  omega

theorem pyUpper_alnum {c : Nat} (h : isAsciiAlnum c = true) :
    isAsciiAlnum (pyUpper c) = true := by
  simp [isAsciiAlnum, isAsciiDigit, isAsciiUpperAlpha, isAsciiLowerAlpha] at h
  simp [pyUpper, isAsciiLowerAlpha, isAsciiAlnum, isAsciiDigit, isAsciiUpperAlpha]
  split_ifs <;> omega

/-! Membership through the pipeline stages. -/

theorem mem_camelSplit_of_mem : ∀ (l : List Nat) (c : Nat), c ∈ l → c ∈ camelSplit l := by
  intro l
  induction l with
  | nil => intro c h; cases h
  | cons a rest ih =>
    intro c h
    cases rest with
    | nil => simpa [camelSplit] using h
    | cons d r2 =>
      rw [camelSplit]
      rcases List.mem_cons.mp h with h1 | h2
      · split <;> simp [h1]
      · have := ih c h2
        split <;> simp [this]

theorem mem_camelSplit_elim : ∀ (l : List Nat) (c : Nat), c ∈ camelSplit l → c = 32 ∨ c ∈ l := by
  intro l
  induction l with
  | nil => intro c h; cases h
  | cons a rest ih =>
    intro c h
    cases rest with
    | nil =>
      simp [camelSplit] at h
      simp [h]
    | cons d r2 =>
      rw [camelSplit] at h
      split at h
      · rcases List.mem_cons.mp h with h1 | h1
        · simp [h1]
        · rcases List.mem_cons.mp h1 with h2 | h2
          · left; exact h2
          · rcases ih c h2 with h3 | h3
            · left; exact h3
            · right; exact List.mem_cons_of_mem _ h3
      · rcases List.mem_cons.mp h with h1 | h1
        · simp [h1]
        · rcases ih c h1 with h3 | h3
          · left; exact h3
          · right; exact List.mem_cons_of_mem _ h3

theorem mem_nonAlnumSubGo_elim :
    ∀ (l : List Nat) (b : Bool) (c : Nat), c ∈ nonAlnumSubGo b l →
      c = 32 ∨ (isAsciiAlnum c = true ∧ c ∈ l) := by
  intro l
  induction l with
  | nil => intro b c h; cases h
  | cons a rest ih =>
    intro b c h
    rw [nonAlnumSubGo] at h
    split at h
    · rcases List.mem_cons.mp h with h1 | h1
      · right; subst h1; simp_all
      · rcases ih false c h1 with h2 | h2
        · left; exact h2
        · right; exact ⟨h2.1, List.mem_cons_of_mem _ h2.2⟩
    · split at h
      · rcases ih true c h with h2 | h2
        · left; exact h2
        · right; exact ⟨h2.1, List.mem_cons_of_mem _ h2.2⟩
      · rcases List.mem_cons.mp h with h1 | h1
        · left; exact h1
        · rcases ih true c h1 with h2 | h2
          · left; exact h2
          · right; exact ⟨h2.1, List.mem_cons_of_mem _ h2.2⟩

theorem mem_nonAlnumSubGo_of_alnum :
    ∀ (l : List Nat) (b : Bool) (c : Nat), isAsciiAlnum c = true → c ∈ l →
      c ∈ nonAlnumSubGo b l := by
  intro l
  induction l with
  | nil => intro b c _ h; cases h
  | cons a rest ih =>
    intro b c hc h
    rw [nonAlnumSubGo]
    rcases List.mem_cons.mp h with h1 | h1
    · subst h1
      simp [hc]
    · split
      · exact List.mem_cons_of_mem _ (ih false c hc h1)
      · split
        · exact ih true c hc h1
        · exact List.mem_cons_of_mem _ (ih true c hc h1)

theorem mem_pySplitWsAux_token :
    ∀ (l t : List Nat) (c : Nat), t ∈ pySplitWsAux l → c ∈ t →
      isPyWs c = false ∧ c ∈ l := by
  intro l
  induction l with
  | nil => intro t c h _; cases h
  | cons a rest ih =>
    intro t c ht hc
    by_cases hwa : isPyWs a = true
    · have h1 : t = [] ∨ t ∈ pySplitWsAux rest := by
        simpa [pySplitWsAux, hwa] using ht
      rcases h1 with h1 | h1
      · subst h1; cases hc
      · have := ih t c h1 hc
        exact ⟨this.1, List.mem_cons_of_mem _ this.2⟩
    · have hwa' : isPyWs a = false := by simpa using hwa
      rcases haux : pySplitWsAux rest with _ | ⟨t0, ts⟩
      · have h1 : t = [a] := by
          simpa [pySplitWsAux, hwa', haux] using ht
        subst h1
        rcases List.mem_cons.mp hc with h2 | h2
        · subst h2; exact ⟨hwa', List.mem_cons_self _ _⟩
        · cases h2
      · have h1 : t = a :: t0 ∨ t ∈ ts := by
          simpa [pySplitWsAux, hwa', haux] using ht
        rcases h1 with h1 | h1
        · subst h1
          rcases List.mem_cons.mp hc with h2 | h2
          · subst h2; exact ⟨hwa', List.mem_cons_self _ _⟩
          · have := ih t0 c (by rw [haux]; exact List.mem_cons_self _ _) h2
            exact ⟨this.1, List.mem_cons_of_mem _ this.2⟩
        · have := ih t c (by rw [haux]; exact List.mem_cons_of_mem _ h1) hc
          exact ⟨this.1, List.mem_cons_of_mem _ this.2⟩

theorem pySplitWsAux_ne_nil_of_cons (a : Nat) (rest : List Nat) :
    pySplitWsAux (a :: rest) ≠ [] := by
  rw [pySplitWsAux]
  split
  · simp
  · split <;> simp

theorem exists_token_of_mem :
    ∀ (l : List Nat) (c : Nat), c ∈ l → isPyWs c = false →
      ∃ t, t ∈ pySplitWsAux l ∧ c ∈ t := by
  intro l
  induction l with
  | nil => intro c h _; cases h
  | cons a rest ih =>
    intro c hc hw
    by_cases hwa : isPyWs a = true
    · have h1 : c ∈ rest := by
        rcases List.mem_cons.mp hc with h1 | h1
        · subst h1; rw [hwa] at hw; cases hw
        · exact h1
      obtain ⟨t, ht, hct⟩ := ih c h1 hw
      refine ⟨t, ?_, hct⟩
      simp [pySplitWsAux, hwa]
      exact Or.inr ht
    · have hwa' : isPyWs a = false := by simpa using hwa
      rcases List.mem_cons.mp hc with h1 | h1
      · subst h1
        rcases haux : pySplitWsAux rest with _ | ⟨t0, ts⟩
        · exact ⟨[c], by simp [pySplitWsAux, hwa', haux], by simp⟩
        · exact ⟨c :: t0, by simp [pySplitWsAux, hwa', haux], by simp⟩
      · obtain ⟨t, ht, hct⟩ := ih c h1 hw
        rcases haux : pySplitWsAux rest with _ | ⟨t0, ts⟩
        · rw [haux] at ht; cases ht
        · rw [haux] at ht
          rcases List.mem_cons.mp ht with h2 | h2
          · subst h2
            exact ⟨a :: t, by simp [pySplitWsAux, hwa', haux], List.mem_cons_of_mem _ hct⟩
          · exact ⟨t, by simp [pySplitWsAux, hwa', haux, h2], hct⟩

/-! ## Segment decomposition of the camel pipeline

`canonSegs` splits a word at exactly the `[a-z0-9][A-Z]` boundaries where
`camelSplit` inserts a space; `joinSegs` is the inverse join with single
spaces. -/

/-- The segments of a word between camel-hump boundaries. -/
def canonSegs : List Nat → List (List Nat)
  | [] => []
  | [c] => [[c]]
  | c :: d :: rest =>
    if isLowerDigit c && isAsciiUpperAlpha d then [c] :: canonSegs (d :: rest)
    else
      match canonSegs (d :: rest) with
      | [] => [[c]]
      | s :: ss => (c :: s) :: ss

/-- Join segments with single spaces. -/
def joinSegs : List (List Nat) → List Nat
  | [] => []
  | [s] => s
  | s :: ss => s ++ 32 :: joinSegs ss

theorem canonSegs_ne_nil (c : Nat) (rest : List Nat) : canonSegs (c :: rest) ≠ [] := by
  cases rest with
  | nil => simp [canonSegs]
  | cons d r2 =>
    rw [canonSegs]
    split
    · simp
    · split <;> simp

theorem canonSegs_flatten : ∀ l : List Nat, (canonSegs l).flatten = l := by
  intro l
  induction l with
  | nil => rfl
  | cons c rest ih =>
    cases rest with
    | nil => rfl
    | cons d r2 =>
      rw [canonSegs]
      split
      · simp [ih]
      · rcases hseg : canonSegs (d :: r2) with _ | ⟨s, ss⟩
        · exact absurd hseg (canonSegs_ne_nil d r2)
        · rw [hseg] at ih
          simp at ih ⊢
          simpa using ih

theorem mem_canonSegs :
    ∀ (l s : List Nat), s ∈ canonSegs l → s ≠ [] ∧ ∀ c ∈ s, c ∈ l := by
  intro l
  induction l with
  | nil => intro s h; cases h
  | cons c rest ih =>
    intro s hs
    cases rest with
    | nil =>
      simp [canonSegs] at hs
      subst hs
      exact ⟨by simp, by intro x hx; simpa using hx⟩
    | cons d r2 =>
      rw [canonSegs] at hs
      split at hs
      · rcases List.mem_cons.mp hs with h1 | h1
        · subst h1
          exact ⟨by simp, by intro x hx; simp at hx; simp [hx]⟩
        · obtain ⟨hne, hmem⟩ := ih s h1
          exact ⟨hne, fun x hx => List.mem_cons_of_mem _ (hmem x hx)⟩
      · rcases hseg : canonSegs (d :: r2) with _ | ⟨s0, ss⟩
        · exact absurd hseg (canonSegs_ne_nil d r2)
        · rw [hseg] at hs
          rcases List.mem_cons.mp hs with h1 | h1
          · subst h1
            refine ⟨by simp, ?_⟩
            intro x hx
            rcases List.mem_cons.mp hx with h2 | h2
            · simp [h2]
            · obtain ⟨_, hmem⟩ := ih s0 (by rw [hseg]; exact List.mem_cons_self _ _)
              exact List.mem_cons_of_mem _ (hmem x h2)
          · obtain ⟨hne, hmem⟩ := ih s (by rw [hseg]; exact List.mem_cons_of_mem _ h1)
            exact ⟨hne, fun x hx => List.mem_cons_of_mem _ (hmem x hx)⟩

theorem camelSplit_eq_joinSegs : ∀ l : List Nat, camelSplit l = joinSegs (canonSegs l) := by
  intro l
  induction l with
  | nil => rfl
  | cons c rest ih =>
    cases rest with
    | nil => rfl
    | cons d r2 =>
      rw [camelSplit, canonSegs]
      split
      · rcases hseg : canonSegs (d :: r2) with _ | ⟨s, ss⟩
        · exact absurd hseg (canonSegs_ne_nil d r2)
        · rw [ih, hseg]
          simp [joinSegs]
      · rcases hseg : canonSegs (d :: r2) with _ | ⟨s, ss⟩
        · exact absurd hseg (canonSegs_ne_nil d r2)
        · rw [ih, hseg]
          cases ss with
          | nil => simp [joinSegs]
          | cons s2 ss2 => simp [joinSegs]

/-- An all-alphanumeric nonempty segment passes through `nonAlnumSubGo`
unchanged (under either flag), the recursion continuing on the remainder with
the flag cleared. -/
theorem nonAlnumSubGo_seg :
    ∀ (s : List Nat), s ≠ [] → (∀ c ∈ s, isAsciiAlnum c = true) →
      ∀ (rest : List Nat) (b : Bool),
        nonAlnumSubGo b (s ++ rest) = s ++ nonAlnumSubGo false rest := by
  intro s
  induction s with
  | nil => intro h; cases h rfl
  | cons c s' ih =>
    intro _ halnum rest b
    have hc : isAsciiAlnum c = true := halnum c (List.mem_cons_self _ _)
    cases s' with
    | nil => simp [nonAlnumSubGo, hc]
    | cons c2 s2 =>
      have hrec := ih (by simp) (fun x hx => halnum x (List.mem_cons_of_mem _ hx)) rest false
      simp only [List.cons_append] at hrec ⊢
      have step1 : nonAlnumSubGo b (c :: (c2 :: (s2 ++ rest)))
          = c :: nonAlnumSubGo false (c2 :: (s2 ++ rest)) := by
        rw [nonAlnumSubGo]
        simp [hc]
      rw [step1, hrec]

/-- `nonAlnumSub` leaves a space-join of nonempty all-alphanumeric segments
unchanged. -/
theorem nonAlnumSubGo_joinSegs :
    ∀ (segs : List (List Nat)) (b : Bool),
      (∀ s ∈ segs, s ≠ [] ∧ ∀ c ∈ s, isAsciiAlnum c = true) →
      nonAlnumSubGo b (joinSegs segs) = joinSegs segs := by
  intro segs
  induction segs with
  | nil => intro b _; rfl
  | cons s ss ih =>
    intro b h
    obtain ⟨hne, halnum⟩ := h s (List.mem_cons_self _ _)
    cases ss with
    | nil =>
      show nonAlnumSubGo b s = s
      have := nonAlnumSubGo_seg s hne halnum [] b
      simpa [nonAlnumSubGo] using this
    | cons s2 ss2 =>
      show nonAlnumSubGo b (s ++ 32 :: joinSegs (s2 :: ss2)) = s ++ 32 :: joinSegs (s2 :: ss2)
      rw [nonAlnumSubGo_seg s hne halnum _ b]
      have h32 : isAsciiAlnum 32 = false := by decide
      rw [show nonAlnumSubGo false (32 :: joinSegs (s2 :: ss2))
          = 32 :: nonAlnumSubGo true (joinSegs (s2 :: ss2)) by
        rw [nonAlnumSubGo]
        simp [h32]]
      rw [ih true (fun t ht => h t (List.mem_cons_of_mem _ ht))]

/-- A nonempty non-whitespace segment heads the token split of `s ++ rest`:
the token absorbs `s` and continues with whatever token `rest` starts with. -/
theorem pySplitWsAux_seg :
    ∀ (s : List Nat), s ≠ [] → (∀ c ∈ s, isPyWs c = false) →
      ∀ rest : List Nat,
        pySplitWsAux (s ++ rest) =
          match pySplitWsAux rest with
          | [] => [s]
          | t :: ts => (s ++ t) :: ts := by
  intro s
  induction s with
  | nil => intro h; cases h rfl
  | cons c s' ih =>
    intro _ hws rest
    have hc : isPyWs c = false := hws c (List.mem_cons_self _ _)
    cases s' with
    | nil =>
      simp only [List.cons_append, List.nil_append, pySplitWsAux, hc]
      rcases h : pySplitWsAux rest with _ | ⟨t, ts⟩ <;> simp [h]
    | cons c2 s2 =>
      have hrec := ih (by simp) (fun x hx => hws x (List.mem_cons_of_mem _ hx)) rest
      simp only [List.cons_append] at hrec ⊢
      rw [pySplitWsAux]
      simp only [hc, if_false]
      rw [hrec]
      rcases h : pySplitWsAux rest with _ | ⟨t, ts⟩ <;> simp [h]

/-- Splitting the space-join of nonempty non-whitespace segments recovers
exactly the segments. -/
theorem pySplitWsAux_joinSegs :
    ∀ segs : List (List Nat),
      (∀ s ∈ segs, s ≠ [] ∧ ∀ c ∈ s, isPyWs c = false) →
      pySplitWsAux (joinSegs segs) = segs := by
  intro segs
  induction segs with
  | nil => intro _; rfl
  | cons s ss ih =>
    intro h
    obtain ⟨hne, hws⟩ := h s (List.mem_cons_self _ _)
    cases ss with
    | nil =>
      show pySplitWsAux s = [s]
      have := pySplitWsAux_seg s hne hws []
      simpa [pySplitWsAux] using this
    | cons s2 ss2 =>
      show pySplitWsAux (s ++ 32 :: joinSegs (s2 :: ss2)) = s :: s2 :: ss2
      rw [pySplitWsAux_seg s hne hws _]
      rw [show pySplitWsAux (32 :: joinSegs (s2 :: ss2))
          = [] :: pySplitWsAux (joinSegs (s2 :: ss2)) by
        simp [pySplitWsAux, isPyWs]]
      rw [ih (fun t ht => h t (List.mem_cons_of_mem _ ht))]
      simp

/-! ## Shape of canonical output and the fixed-point theorem -/

/-- No two adjacent uppercase letters. -/
def noAdjacentUpper : List Nat → Bool
  | c :: d :: rest =>
    !(isAsciiUpperAlpha c && isAsciiUpperAlpha d) && noAdjacentUpper (d :: rest)
  | _ => true

theorem alnum_cases {c : Nat} (h : isAsciiAlnum c = true) :
    isLowerDigit c = true ∨ isAsciiUpperAlpha c = true := by
  simp [isAsciiAlnum, isAsciiDigit, isAsciiUpperAlpha, isAsciiLowerAlpha] at h
  simp [isLowerDigit, isAsciiLowerAlpha, isAsciiDigit, isAsciiUpperAlpha]
  omega

theorem map_self_of_mem {α : Type} (f : α → α) :
    ∀ l : List α, (∀ x ∈ l, f x = x) → l.map f = l := by
  intro l
  induction l with
  | nil => intro _; rfl
  | cons x xs ih =>
    intro h
    simp only [List.map_cons, h x (List.mem_cons_self _ _),
      ih (fun y hy => h y (List.mem_cons_of_mem _ hy))]

theorem dropWhile_all_false {α : Type} (p : α → Bool) :
    ∀ l : List α, (∀ c ∈ l, p c = false) → l.dropWhile p = l := by
  intro l
  induction l with
  | nil => intro _; rfl
  | cons c rest _ =>
    intro h
    simp [List.dropWhile, h c (List.mem_cons_self _ _)]

theorem pyStrip_eq_self {l : List Nat} (h : ∀ c ∈ l, isPyWs c = false) :
    pyStrip l = l := by
  unfold pyStrip
  rw [dropWhile_all_false isPyWs l h]
  rw [dropWhile_all_false isPyWs l.reverse (fun c hc => h c (List.mem_reverse.mp hc))]
  exact List.reverse_reverse l

theorem stripSuffixC_eq_self {l : List Nat} (h : ∀ c ∈ l, isAsciiAlnum c = true) :
    stripSuffixC l = l := by
  unfold stripSuffixC
  have hsuf : [95, 95, 99].isSuffixOf l = false := by
    by_contra hcon
    simp only [Bool.not_eq_false, List.isSuffixOf_iff_suffix] at hcon
    obtain ⟨t, ht⟩ := hcon
    have h95 : (95 : Nat) ∈ l := by
      rw [← ht]; simp
    have := h 95 h95
    simp [isAsciiAlnum, isAsciiDigit, isAsciiUpperAlpha, isAsciiLowerAlpha] at this
  simp [hsuf]

/-- With no adjacent uppercase and a lower/digit head character, the camel
segments of a word are: a first segment `head :: (lower/digit)*` and then
segments `Upper :: (lower/digit)*`. -/
theorem canonSegs_shape :
    ∀ (rest : List Nat) (c0 : Nat),
      (∀ c ∈ c0 :: rest, isAsciiAlnum c = true) →
      noAdjacentUpper (c0 :: rest) = true →
      ∃ tl ss, canonSegs (c0 :: rest) = (c0 :: tl) :: ss ∧
        (∀ x ∈ tl, isLowerDigit x = true) ∧
        (∀ t ∈ ss, ∃ u us, t = u :: us ∧ isAsciiUpperAlpha u = true ∧
          ∀ x ∈ us, isLowerDigit x = true) := by
  intro rest
  induction rest with
  | nil =>
    intro c0 _ _
    refine ⟨[], [], rfl, ?_, ?_⟩
    · intro x hx; cases hx
    · intro t ht; cases ht
  | cons d r2 ih =>
    intro c0 halnum hadj
    have halnum' : ∀ c ∈ d :: r2, isAsciiAlnum c = true :=
      fun c hc => halnum c (List.mem_cons_of_mem _ hc)
    rw [noAdjacentUpper] at hadj
    simp only [Bool.and_eq_true] at hadj
    obtain ⟨hpair0, hadj'⟩ := hadj
    have hpair : ¬(isAsciiUpperAlpha c0 = true ∧ isAsciiUpperAlpha d = true) := by
      simp only [Bool.not_eq_true'] at hpair0
      intro ⟨h1, h2⟩
      rw [h1, h2] at hpair0
      cases hpair0
    obtain ⟨tl', ss', hseg', htl', hss'⟩ := ih d halnum' hadj'
    rw [canonSegs]
    by_cases hb : (isLowerDigit c0 && isAsciiUpperAlpha d) = true
    · rw [if_pos hb]
      rw [hseg']
      refine ⟨[], (d :: tl') :: ss', rfl, ?_, ?_⟩
      · intro x hx; cases hx
      · intro t ht
        rcases List.mem_cons.mp ht with h1 | h1
        · refine ⟨d, tl', h1, ?_, htl'⟩
          have := Bool.and_eq_true (isLowerDigit c0) (isAsciiUpperAlpha d)
          rw [this] at hb
          exact hb.2
        · exact hss' t h1
    · rw [if_neg hb]
      rw [hseg']
      have hd_ld : isLowerDigit d = true := by
        rcases alnum_cases (halnum' d (List.mem_cons_self _ _)) with h1 | h1
        · exact h1
        · rcases alnum_cases (halnum c0 (List.mem_cons_self _ _)) with h2 | h2
          · exact absurd (by rw [h2, h1]; rfl : (isLowerDigit c0 && isAsciiUpperAlpha d) = true) hb
          · exact absurd ⟨h2, h1⟩ hpair
      refine ⟨d :: tl', ss', rfl, ?_, hss'⟩
      intro x hx
      rcases List.mem_cons.mp hx with h1 | h1
      · rw [h1]; exact hd_ld
      · exact htl' x h1

/-- `capToken` fixes a segment of the form `Upper :: (lower/digit)*`. -/
theorem capToken_fixed {u : Nat} {us : List Nat} (hu : isAsciiUpperAlpha u = true)
    (hus : ∀ x ∈ us, isLowerDigit x = true) : capToken (u :: us) = u :: us := by
  rw [capToken, pyUpper_id_of_upper hu,
    map_self_of_mem pyLower us (fun x hx => pyLower_id_of_lowerDigit (hus x hx))]

/-- The fixed-point theorem: an all-alphanumeric word whose first character is a
lowercase letter or digit and which has no two adjacent uppercase letters is
left unchanged by `toCamelCase`. -/
theorem toCamelCase_fixed :
    ∀ w : List Nat, (∀ c ∈ w, isAsciiAlnum c = true) →
      (∀ c0 rest, w = c0 :: rest → isLowerDigit c0 = true) →
      noAdjacentUpper w = true →
      toCamelCase w = w := by
  intro w halnum hhead hadj
  cases w with
  | nil => rfl
  | cons c0 rest =>
    have hmemsegs : ∀ s ∈ canonSegs (c0 :: rest), s ≠ [] ∧
        ∀ c ∈ s, isAsciiAlnum c = true := by
      intro s hs
      obtain ⟨hne, hmem⟩ := mem_canonSegs _ s hs
      exact ⟨hne, fun c hc => halnum c (hmem c hc)⟩
    have hsplit : pySplitWs (joinSegs (canonSegs (c0 :: rest))) = canonSegs (c0 :: rest) := by
      unfold pySplitWs
      rw [pySplitWsAux_joinSegs _ (fun s hs =>
        ⟨(hmemsegs s hs).1, fun c hc => alnum_not_ws ((hmemsegs s hs).2 c hc)⟩)]
      rw [List.filter_eq_self]
      intro t ht
      simpa using (hmemsegs t ht).1
    obtain ⟨tl, ss, hseg, htl, hss⟩ := canonSegs_shape rest c0 halnum hadj
    have hfilter : List.filter (fun p => decide (p ≠ [])) ((c0 :: tl) :: ss)
        = (c0 :: tl) :: ss := by
      rw [List.filter_eq_self]
      intro t ht
      rw [← hseg] at ht
      simpa using (hmemsegs t ht).1
    have hc0 : isLowerDigit c0 = true := hhead c0 rest rfl
    have hmaplow : List.map pyLower (c0 :: tl) = c0 :: tl := by
      refine map_self_of_mem pyLower (c0 :: tl) ?_
      intro x hx
      rcases List.mem_cons.mp hx with h1 | h1
      · rw [h1]; exact pyLower_id_of_lowerDigit hc0
      · exact pyLower_id_of_lowerDigit (htl x h1)
    have hmapcap : List.map capToken ss = ss := by
      refine map_self_of_mem capToken ss ?_
      intro t ht
      obtain ⟨u, us, ht1, hu, hus⟩ := hss t ht
      rw [ht1]
      exact capToken_fixed hu hus
    unfold toCamelCase
    rw [pyStrip_eq_self (fun c hc => alnum_not_ws (halnum c hc)),
      stripSuffixC_eq_self halnum, camelSplit_eq_joinSegs]
    rw [show nonAlnumSub (joinSegs (canonSegs (c0 :: rest)))
        = joinSegs (canonSegs (c0 :: rest)) from
      nonAlnumSubGo_joinSegs _ false hmemsegs]
    rw [hsplit, hseg, hfilter]
    show List.map pyLower (c0 :: tl) ++ (List.map capToken ss).flatten = c0 :: rest
    rw [hmaplow, hmapcap]
    have := canonSegs_flatten (c0 :: rest)
    rw [hseg] at this
    simpa using this

theorem pyLower_alnum {c : Nat} (h : isAsciiAlnum c = true) :
    isAsciiAlnum (pyLower c) = true :=
  lowerDigit_alnum (pyLower_lowerDigit h)

/-- Every character of every token that reaches the join in `toCamelCase` is
alphanumeric. -/
theorem tokens_alnum (s : List Nat) :
    ∀ t ∈ pySplitWsAux (nonAlnumSub (camelSplit (stripSuffixC (pyStrip s)))),
      ∀ c ∈ t, isAsciiAlnum c = true := by
  intro t ht c hc
  obtain ⟨hws, hmem⟩ :=
    mem_pySplitWsAux_token (nonAlnumSub (camelSplit (stripSuffixC (pyStrip s)))) t c ht hc
  rcases mem_nonAlnumSubGo_elim _ false c hmem with h1 | h1
  · subst h1; simp [isPyWs] at hws
  · exact h1.1

/-- Shape of `toCamelCase`'s output: empty, or a lower/digit first character
followed by alphanumerics. -/
theorem toCamelCase_shape (s : List Nat) :
    toCamelCase s = [] ∨
      ∃ c cs, toCamelCase s = c :: cs ∧ isLowerDigit c = true ∧
        ∀ d ∈ cs, isAsciiAlnum d = true := by
  have htok := tokens_alnum s
  unfold toCamelCase
  rcases hp : (pySplitWs (nonAlnumSub (camelSplit (stripSuffixC (pyStrip s))))).filter
      (fun p => p ≠ []) with _ | ⟨h, t⟩
  · left
    rw [hp]
  · right
    have hparts : ∀ x ∈ h :: t,
        x ∈ pySplitWsAux (nonAlnumSub (camelSplit (stripSuffixC (pyStrip s)))) ∧ x ≠ [] := by
      intro x hx
      rw [← hp] at hx
      have h1 := List.mem_filter.mp hx
      have h2 := List.mem_filter.mp h1.1
      refine ⟨h2.1, ?_⟩
      simpa using h1.2
    obtain ⟨hhaux, hhne⟩ := hparts h (List.mem_cons_self _ _)
    cases h with
    | nil => cases hhne rfl
    | cons c1 h' =>
      have hc1 : isAsciiAlnum c1 = true := htok _ hhaux c1 (List.mem_cons_self _ _)
      refine ⟨pyLower c1, List.map pyLower h' ++ (List.map capToken t).flatten, ?_, ?_, ?_⟩
      · rw [hp]
        simp
      · exact pyLower_lowerDigit hc1
      · intro d hd
        rcases List.mem_append.mp hd with h1 | h1
        · obtain ⟨x, hx, hdx⟩ := List.mem_map.mp h1
          rw [← hdx]
          exact pyLower_alnum (htok _ hhaux x (List.mem_cons_of_mem _ hx))
        · obtain ⟨t0, ht0, hd0⟩ := List.mem_flatten.mp h1
          obtain ⟨t1, ht1, hct⟩ := List.mem_map.mp ht0
          obtain ⟨h1aux, h1ne⟩ := hparts t1 (List.mem_cons_of_mem _ ht1)
          cases t1 with
          | nil => cases h1ne rfl
          | cons c2 t1' =>
            rw [← hct] at hd0
            rw [capToken] at hd0
            rcases List.mem_cons.mp hd0 with h2 | h2
            · rw [h2]
              exact pyUpper_alnum (htok _ h1aux c2 (List.mem_cons_self _ _))
            · obtain ⟨x, hx, hdx⟩ := List.mem_map.mp h2
              rw [← hdx]
              exact pyLower_alnum (htok _ h1aux x (List.mem_cons_of_mem _ hx))

/-- `toCamelCase` yields the empty string exactly when the trimmed,
`__c`-stripped key has no alphanumeric character. -/
theorem toCamelCase_empty_iff (s : List Nat) :
    toCamelCase s = [] ↔ ∀ c ∈ stripSuffixC (pyStrip s), isAsciiAlnum c = false := by
  constructor
  · intro hempty
    by_contra hcon
    push_neg at hcon
    obtain ⟨c, hcs, hcal⟩ := hcon
    have hcal' : isAsciiAlnum c = true := by
      revert hcal
      cases isAsciiAlnum c <;> simp
    have hc1 : c ∈ camelSplit (stripSuffixC (pyStrip s)) := mem_camelSplit_of_mem _ c hcs
    have hc2 : c ∈ nonAlnumSub (camelSplit (stripSuffixC (pyStrip s))) :=
      mem_nonAlnumSubGo_of_alnum _ false c hcal' hc1
    obtain ⟨t, htaux, hct⟩ := exists_token_of_mem _ c hc2 (alnum_not_ws hcal')
    have htne : t ≠ [] := by
      intro h; rw [h] at hct; cases hct
    have htparts : t ∈ (pySplitWs (nonAlnumSub (camelSplit (stripSuffixC (pyStrip s))))).filter
        (fun p => p ≠ []) := by
      refine List.mem_filter.mpr ⟨List.mem_filter.mpr ⟨htaux, by simpa using htne⟩, ?_⟩
      simpa using htne
    rcases hp : (pySplitWs (nonAlnumSub (camelSplit (stripSuffixC (pyStrip s))))).filter
        (fun p => p ≠ []) with _ | ⟨h, trest⟩
    · rw [hp] at htparts; cases htparts
    · have hne2 : (h.map pyLower ++ (trest.map capToken).flatten) ≠ [] := by
        have hhne : h ≠ [] := by
          have := List.mem_filter.mp (hp ▸ List.mem_cons_self h trest)
          simpa using this.2
        cases h with
        | nil => cases hhne rfl
        | cons c1 h' => simp
      have : toCamelCase s = h.map pyLower ++ (trest.map capToken).flatten := by
        unfold toCamelCase
        rw [hp]
      rw [this] at hempty
      exact hne2 hempty
  · intro hnone
    have htokempty : ∀ t ∈ pySplitWsAux (nonAlnumSub (camelSplit (stripSuffixC (pyStrip s)))),
        t = [] := by
      intro t ht
      by_contra htne
      obtain ⟨c, hc⟩ := List.exists_mem_of_ne_nil t htne
      obtain ⟨hws, hmem⟩ := mem_pySplitWsAux_token _ t c ht hc
      rcases mem_nonAlnumSubGo_elim _ false c hmem with h1 | h1
      · subst h1; simp [isPyWs] at hws
      · rcases mem_camelSplit_elim _ c h1.2 with h2 | h2
        · subst h2; simp [isPyWs] at hws
        · have := hnone c h2
          rw [h1.1] at this
          cases this
    have hp : (pySplitWs (nonAlnumSub (camelSplit (stripSuffixC (pyStrip s))))).filter
        (fun p => p ≠ []) = [] := by
      rcases hq : (pySplitWs (nonAlnumSub (camelSplit (stripSuffixC (pyStrip s))))).filter
          (fun p => p ≠ []) with _ | ⟨h, t⟩
      · exact hq
      · have hh := hq ▸ List.mem_cons_self h t
        have h1 := List.mem_filter.mp hh
        have h2 := List.mem_filter.mp h1.1
        have := htokempty h h2.1
        rw [this] at h1
        simp at h1
    unfold toCamelCase
    rw [hp]

/-! ## Dict-comprehension lemmas for `normalize_keys` -/

theorem dictInsert_of_not_mem {acc : List (List Nat × PyVal)} {k : List Nat} {v : PyVal}
    (h : ∀ p ∈ acc, p.1 ≠ k) : dictInsert acc k v = acc ++ [(k, v)] := by
  have hany : acc.any (fun p => decide (p.1 = k)) = false := by
    by_contra hcon
    simp only [Bool.not_eq_false, List.any_eq_true] at hcon
    obtain ⟨p, hp, hpk⟩ := hcon
    exact h p hp (by simpa using hpk)
  unfold dictInsert
  simp [hany]

theorem foldl_dictInsert_nodup :
    ∀ (ps acc : List (List Nat × PyVal)),
      (acc.map Prod.fst ++ ps.map Prod.fst).Nodup →
      ps.foldl (fun a p => dictInsert a p.1 p.2) acc = acc ++ ps := by
  intro ps
  induction ps with
  | nil => intro acc _; simp
  | cons hd tl ih =>
    obtain ⟨k, v⟩ := hd
    intro acc hnd
    simp only [List.map_cons] at hnd
    have hk : ∀ p ∈ acc, p.1 ≠ k := by
      intro p hp heq
      have h1 : p.1 ∈ acc.map Prod.fst := List.mem_map.mpr ⟨p, hp, rfl⟩
      have h2 : p.1 ∈ k :: tl.map Prod.fst := by rw [heq]; exact List.mem_cons_self _ _
      exact (List.nodup_append.mp hnd).2.2 h1 h2
    simp only [List.foldl_cons]
    rw [dictInsert_of_not_mem hk]
    rw [ih (acc ++ [(k, v)]) ?_]
    · simp
    · have heq : (acc ++ [(k, v)]).map Prod.fst ++ tl.map Prod.fst
          = acc.map Prod.fst ++ k :: tl.map Prod.fst := by
        simp
      rw [heq]
      exact hnd

theorem normKeysPairs_eq_map :
    ∀ kvs : List (List Nat × PyVal),
      normKeysPairs kvs = kvs.map (fun p => (toCamelCase p.1, normalize_keys p.2)) := by
  intro kvs
  induction kvs with
  | nil => rfl
  | cons p rest ih =>
    cases p with
    | mk k v => simp [normKeysPairs, ih]

theorem normKeysList_eq_map :
    ∀ xs : List PyVal, normKeysList xs = xs.map normalize_keys := by
  intro xs
  induction xs with
  | nil => rfl
  | cons x rest ih => simp [normKeysList, ih]

/-! ## Selection lemmas for `sanitize_for_arrow` -/

theorem selectCols_names (cleaned : List (List Nat × List PyVal)) :
    ∀ names : List (List Nat), (∀ n ∈ names, ∃ p ∈ cleaned, p.1 = n) →
      (selectCols cleaned names).map Prod.fst = names := by
  intro names
  induction names with
  | nil => intro _; rfl
  | cons n rest ih =>
    intro h
    obtain ⟨p, hp, hpn⟩ := h n (List.mem_cons_self _ _)
    rcases hf : cleaned.find? (fun q => q.1 = n) with _ | y
    · exfalso
      have := List.find?_eq_none.mp hf p hp
      simp [hpn] at this
    · simp only [selectCols, List.filterMap_cons, hf, Option.map_some]
      have := ih (fun m hm => h m (List.mem_cons_of_mem _ hm))
      simp only [selectCols] at this
      simp [this]

theorem selectCols_length_le (cleaned : List (List Nat × List PyVal))
    (names : List (List Nat)) : (selectCols cleaned names).length ≤ names.length :=
  List.length_filterMap_le _ _

theorem pySliceTo_length_le {α : Type} (n : Int) (hn : 0 ≤ n) (l : List α) :
    (pySliceTo n l).length ≤ n.toNat := by
  unfold pySliceTo
  rw [if_pos hn]
  exact List.length_take_le _ _

theorem mem_pySliceTo {α : Type} (n : Int) (l : List α) :
    ∀ x ∈ pySliceTo n l, x ∈ l := by
  intro x hx
  unfold pySliceTo at hx
  split at hx <;> exact List.mem_of_mem_take hx

/-! ## The claims -/

/-- `^[a-z][a-zA-Z0-9]*$` of the spec's CanonicalKey. -/
def matchesCanonicalKey (l : List Nat) : Bool :=
  match l with
  | [] => false
  | c :: rest => isAsciiLowerAlpha c && rest.all isAsciiAlnum

/-- **C1**: the claim says both enrichers are total on every malformed record.
The code is not: on a sale entry whose `SalePrice` is a multi-element list,
`_num` passes the list to `pd.isna`, whose element-wise boolean ndarray makes
the `if` raise `ValueError`, aborting `enrich_rivco_row`.  This theorem
evaluates the embedded code at that failing record. -/
theorem c1_enrich_raises_on_nested_list :
    enrich_rivco_row (.dict [(pstr "sales", .list
      [.dict [(pstr "saledate", .str (pstr "2020-01-01")),
              (pstr "SalePrice", .list [.int 1, .int 2])]])])
    = .error () := by rfl

/-- **C2** (counterexample): the claim says an unparseable tax-year value is
treated as 0 for sort purposes and the summarizer does not fail on it.  But the
sort key is `int(... or 0)`, and `int("abc")` raises `ValueError`: on a history
entry with `TaxYear = "abc"` both the key function and the whole summarizer
fail instead of treating the value as 0. -/
theorem c2_counterexample_unparseable_year :
    histSortKey (.dict [(pstr "TaxYear", .str (pstr "abc"))]) = .error () ∧
    enrich_rivco_row (.dict [(pstr "history", .list
      [.dict [(pstr "TaxYear", .str (pstr "abc"))]])]) = .error () :=
  ⟨by rfl, by rfl⟩

/-- **C2** (amended): a *missing or falsy* tax-year value is treated as integer
0 for sort purposes only — the sort key of an entry with no `TaxYear`/`taxYear`
key is 0, the summarizer succeeds on such histories, and the 0 is not stored:
`assessedYearLatest` carries `str` of the latest entry's raw tax-year value
(an unparseable truthy value instead raises, per the counterexample). -/
theorem c2_amended_missing_year_zero_key (kvs : List (List Nat × PyVal))
    (h1 : kvs.find? (fun p => p.1 = pstr "TaxYear") = Option.none)
    (h2 : kvs.find? (fun p => p.1 = pstr "taxYear") = Option.none) :
    histSortKey (.dict kvs) = .ok 0 ∧
    enrich_rivco_row (.dict [(pstr "history", .list
      [.dict [(pstr "AssessedTot", .int 100000)],
       .dict [(pstr "TaxYear", .int 2022), (pstr "AssessedTot", .int 110000)]])])
    = .ok [(pstr "salesCount", .int 0),
           (pstr "assessedYearLatest", .str (pstr "2022")),
           (pstr "assessedLatest", .float (Frac.ofInt 110000)),
           (pstr "assessedPrev", .float (Frac.ofInt 100000)),
           (pstr "assessedYoYDelta", .float (Frac.ofInt 10000)),
           (pstr "assessedYoYPct", .float (Frac.ofInt 10))] := by
  constructor
  · simp [histSortKey, pyGet, h1, h2, pyOr, pyTruthy, pyIntOf]
  · rfl

/-- Witness for the amended C2 at a concrete year-less entry. -/
theorem c2_amended_missing_year_zero_key_witness :
    histSortKey (.dict [(pstr "AssessedTot", .int 100000)]) = .ok 0 :=
  (c2_amended_missing_year_zero_key [(pstr "AssessedTot", .int 100000)] rfl rfl).1

/-- **C3** (counterexample): the claim says every output mapping has exactly as
many entries as the input mapping.  Two distinct raw keys can normalize to the
same canonical key, and the dict comprehension then collapses them: the 2-entry
input `{"a_b": …, "aB": …}` normalizes to the 1-entry `{"aB": …}`. -/
theorem c3_counterexample_key_collision :
    normalize_keys (.dict [(pstr "a_b", PyVal.none), (pstr "aB", PyVal.int 2)])
      = .dict [(pstr "aB", PyVal.int 2)] ∧ pstr "a_b" ≠ pstr "aB" :=
  ⟨by rfl, by decide⟩

/-- **C3** (amended): `normalize_keys` replaces every mapping key by its
`toCamelCase` image and normalizes every value recursively, with later entries
overwriting earlier ones on key collision; when the normalized keys are
pairwise distinct the output mapping has exactly the input's entries in order
(hence the same size); sequences keep their length and element order; every
non-mapping, non-sequence value — null included — passes through unchanged. -/
theorem c3_amended_structure (kvs : List (List Nat × PyVal)) (xs : List PyVal)
    (n : Int) (q : Frac) (st : List Nat) (b : Bool)
    (h : (kvs.map (fun p => toCamelCase p.1)).Nodup) :
    normalize_keys (.dict kvs) = .dict (normKeysPairs kvs) ∧
    normKeysPairs kvs = kvs.map (fun p => (toCamelCase p.1, normalize_keys p.2)) ∧
    (normKeysPairs kvs).length = kvs.length ∧
    normalize_keys (.list xs) = .list (xs.map normalize_keys) ∧
    (xs.map normalize_keys).length = xs.length ∧
    normalize_keys PyVal.none = PyVal.none ∧
    normalize_keys PyVal.nan = PyVal.nan ∧
    normalize_keys (PyVal.bool b) = PyVal.bool b ∧
    normalize_keys (PyVal.int n) = PyVal.int n ∧
    normalize_keys (PyVal.float q) = PyVal.float q ∧
    normalize_keys (PyVal.str st) = PyVal.str st := by
  refine ⟨?_, normKeysPairs_eq_map kvs, ?_, ?_, by simp, rfl, rfl, rfl, rfl, rfl, rfl⟩
  · show PyVal.dict (dictOfPairs (normKeysPairs kvs)) = PyVal.dict (normKeysPairs kvs)
    unfold dictOfPairs
    rw [foldl_dictInsert_nodup (normKeysPairs kvs) [] ?_]
    · simp
    · simp only [List.map_nil, List.nil_append]
      rw [normKeysPairs_eq_map]
      simpa [List.map_map, Function.comp] using h
  · rw [normKeysPairs_eq_map]; simp
  · show PyVal.list (normKeysList xs) = PyVal.list (xs.map normalize_keys)
    rw [normKeysList_eq_map]

/-- Witness for the amended C3 at a concrete two-entry mapping with distinct
normalized keys. -/
theorem c3_amended_structure_witness :
    normalize_keys (.dict [(pstr "Tax_Year", PyVal.none), (pstr "b", PyVal.int 1)])
      = .dict (normKeysPairs [(pstr "Tax_Year", PyVal.none), (pstr "b", PyVal.int 1)]) :=
  (c3_amended_structure [(pstr "Tax_Year", PyVal.none), (pstr "b", PyVal.int 1)]
    [] 0 ⟨0, 1⟩ [] true (by decide)).1

/-- **C4** (counterexample): the claim says every output is empty or matches
`^[a-z][a-zA-Z0-9]*$`, with emptiness exactly on keys without alphanumeric
content.  `to_camel_case "1" = "1"` starts with a digit (neither empty nor a
match), and `to_camel_case "__c" = ""` even though `"__c"` contains the
alphanumeric `c` (the `__c` suffix is stripped first). -/
theorem c4_counterexample_digit_key :
    toCamelCase (pstr "1") = pstr "1" ∧
    matchesCanonicalKey (toCamelCase (pstr "1")) = false ∧
    toCamelCase (pstr "1") ≠ [] ∧
    toCamelCase (pstr "__c") = [] ∧
    isAsciiAlnum 99 = true ∧ 99 ∈ pstr "__c" := by decide

/-- **C4** (amended): for every string key, `to_camel_case` returns the empty
string exactly when the trimmed, `__c`-stripped key has no ASCII alphanumeric
character; otherwise the output consists of ASCII alphanumerics and its first
character is a lowercase letter *or digit* (determinism holds trivially: the
embedding is a function of the key alone). -/
theorem c4_amended_shape_claim (s : List Nat) :
    (toCamelCase s = [] ↔ ∀ c ∈ stripSuffixC (pyStrip s), isAsciiAlnum c = false) ∧
    (toCamelCase s = [] ∨ ∃ c cs, toCamelCase s = c :: cs ∧ isLowerDigit c = true ∧
      ∀ d ∈ cs, isAsciiAlnum d = true) :=
  ⟨toCamelCase_empty_iff s, toCamelCase_shape s⟩

/-- Witness for the amended C4 at a concrete key. -/
theorem c4_amended_shape_claim_witness :
    (toCamelCase (pstr "SALE_PRICE__c") = [] ↔
      ∀ c ∈ stripSuffixC (pyStrip (pstr "SALE_PRICE__c")), isAsciiAlnum c = false) ∧
    (toCamelCase (pstr "SALE_PRICE__c") = [] ∨
      ∃ c cs, toCamelCase (pstr "SALE_PRICE__c") = c :: cs ∧ isLowerDigit c = true ∧
        ∀ d ∈ cs, isAsciiAlnum d = true) :=
  c4_amended_shape_claim (pstr "SALE_PRICE__c")

/-- **C5** (counterexample): the claim says `to_camel_case` is idempotent on all
strings.  It is not: `"a B C"` normalizes to `"aBC"`, which re-normalizes to
`"aBc"` (the camel-split regex cannot separate the adjacent capitals, so `BC`
becomes one token and is re-capitalized as `Bc`). -/
theorem c5_counterexample_not_idempotent :
    toCamelCase (pstr "a B C") = pstr "aBC" ∧
    toCamelCase (toCamelCase (pstr "a B C")) = pstr "aBc" ∧
    toCamelCase (toCamelCase (pstr "a B C")) ≠ toCamelCase (pstr "a B C") := by decide

/-- **C5** (amended): `to_camel_case` is idempotent on every string whose
canonical output has no two adjacent uppercase letters; adjacent capitals
(produced only by consecutive single-letter words) are the sole obstruction. -/
theorem c5_amended_idempotent (s : List Nat)
    (h : noAdjacentUpper (toCamelCase s) = true) :
    toCamelCase (toCamelCase s) = toCamelCase s := by
  rcases toCamelCase_shape s with h1 | ⟨c, cs, heq, hld, hal⟩
  · rw [h1]; rfl
  · refine toCamelCase_fixed (toCamelCase s) ?_ ?_ h
    · intro x hx
      rw [heq] at hx
      rcases List.mem_cons.mp hx with h2 | h2
      · rw [h2]; exact lowerDigit_alnum hld
      · exact hal x h2
    · intro c0 rest h0
      rw [heq] at h0
      injection h0 with e1 _
      rw [← e1]; exact hld

/-- Witness for the amended C5 at a concrete key whose canonical output
(`salePrice`) has no adjacent capitals. -/
theorem c5_amended_idempotent_witness :
    noAdjacentUpper (toCamelCase (pstr "SALE_PRICE__c")) = true ∧
    toCamelCase (toCamelCase (pstr "SALE_PRICE__c")) = toCamelCase (pstr "SALE_PRICE__c") :=
  ⟨by decide, c5_amended_idempotent (pstr "SALE_PRICE__c") (by decide)⟩

/-- **C6**: the history summarizer on the spec's sales example yields
`salesCount = 2`, `lastSaleDate = "2022-06-01"`, `lastSalePrice = 200000.0`
(the last sale is the entry with maximum parsed date), and on the spec's
history example yields `assessedYearLatest = "2022"`, `assessedLatest =
110000`, `assessedPrev = 100000`, `assessedYoYDelta = 10000` and
`assessedYoYPct = 10` exactly (≈ 10.0 under floating point). -/
theorem c6_history_sales_examples :
    enrich_rivco_row (.dict [(pstr "sales", .list
      [.dict [(pstr "saledate", .str (pstr "2020-01-01")),
              (pstr "SalePrice", .str (pstr "$100,000"))],
       .dict [(pstr "saledate", .str (pstr "2022-06-01")),
              (pstr "SalePrice", .str (pstr "200000"))]])])
    = .ok [(pstr "salesCount", .int 2),
           (pstr "lastSaleDate", .str (pstr "2022-06-01")),
           (pstr "lastSalePrice", .float (Frac.ofInt 200000)),
           (pstr "lastSaleQualified", .none)] ∧
    enrich_rivco_row (.dict [(pstr "history", .list
      [.dict [(pstr "TaxYear", .int 2021), (pstr "AssessedTot", .int 100000)],
       .dict [(pstr "TaxYear", .int 2022), (pstr "AssessedTot", .int 110000)]])])
    = .ok [(pstr "salesCount", .int 0),
           (pstr "assessedYearLatest", .str (pstr "2022")),
           (pstr "assessedLatest", .float (Frac.ofInt 110000)),
           (pstr "assessedPrev", .float (Frac.ofInt 100000)),
           (pstr "assessedYoYDelta", .float (Frac.ofInt 10000)),
           (pstr "assessedYoYPct", .float (Frac.ofInt 10))] :=
  ⟨by rfl, by rfl⟩

/-- **C7**: the numeric-coercion threshold is strict.  The column
`[1, 2, "bad", 4]` (three of four non-null values coercible, 75%) is not
replaced by the coerced column and, all its values being scalar, is left
entirely unchanged; in general a non-skipped column takes the serialize branch
whenever the `> 0.9` test fails and the numeric branch exactly when it holds. -/
theorem c7_strict_coercion_threshold :
    cleanCol [.int 1, .int 2, .str (pstr "bad"), .int 4]
      = [.int 1, .int 2, .str (pstr "bad"), .int 4] ∧
    (∀ col : List PyVal, colSkipDtype col = false →
      ¬ (0 < (col.filter (fun v => !isNACell v)).length ∧
          Frac.blt (Frac.norm 9 10)
            (Frac.norm (((col.map toNumericCell).filter (fun o => o.isSome)).length)
              ((col.filter (fun v => !isNACell v)).length))) →
      cleanCol col = col.map (fun v => if is_scalar v then v else .str (safe_json_dumps v))) ∧
    (∀ col : List PyVal, colSkipDtype col = false →
      (0 < (col.filter (fun v => !isNACell v)).length ∧
          Frac.blt (Frac.norm 9 10)
            (Frac.norm (((col.map toNumericCell).filter (fun o => o.isSome)).length)
              ((col.filter (fun v => !isNACell v)).length))) →
      cleanCol col = (col.map toNumericCell).map (fun o => match o with
        | some q => PyVal.float q
        | Option.none => PyVal.nan)) := by
  refine ⟨by rfl, ?_, ?_⟩
  · intro col hskip hcond
    unfold cleanCol
    rw [if_neg (by simp [hskip]), if_neg hcond]
  · intro col hskip hcond
    unfold cleanCol
    rw [if_neg (by simp [hskip]), if_pos hcond]

/-- Witness for C7's conditional branches at the concrete 75% column. -/
theorem c7_strict_coercion_threshold_witness :
    cleanCol [.int 1, .int 2, .str (pstr "bad"), .int 4]
      = [PyVal.int 1, PyVal.int 2, PyVal.str (pstr "bad"), PyVal.int 4].map
          (fun v => if is_scalar v then v else .str (safe_json_dumps v)) :=
  (c7_strict_coercion_threshold.2.1) [.int 1, .int 2, .str (pstr "bad"), .int 4]
    (by decide) (by decide)

/-- **C8** (counterexample): the claim says preferred columns in the output
always precede non-preferred ones.  When no column is safe, the fallback
returns the first `max_cols` cleaned columns in original order: with two unsafe
mixed columns `x` and `p` and `prefer_cols = ["p"]`, the preferred `p` appears
in the output *after* the non-preferred `x`. -/
theorem c8_counterexample_fallback_order :
    (sanitize_for_arrow ⟨[(pstr "x", [.int 1, .str (pstr "bad")]),
        (pstr "p", [.int 2, .str (pstr "bad")])]⟩ (some [pstr "p"]) 20).cols.map Prod.fst
      = [pstr "x", pstr "p"] ∧
    pstr "x" ≠ pstr "p" ∧ (pstr "p") ∈ [pstr "p"] ∧ (pstr "x") ∉ [pstr "p"] :=
  ⟨by rfl, by decide, by decide, by decide⟩

/-- **C8** (amended): for every non-empty table, preferred list and bound
`max_cols ≥ 0`, the output has at most `max_cols` columns; and whenever at
least one cleaned column is safe (so the main branch runs rather than the
fallback), the output column names split as a prefix of preferred names
followed only by non-preferred names — preferred columns present come first,
then remaining safe columns, truncated to `max_cols`. -/
theorem c8_amended_cap_and_prefix (df : PyDF) (pc : List (List Nat)) (mc : Int)
    (hne : dfEmpty df = false) (hmc : 0 ≤ mc) :
    (sanitize_for_arrow df (some pc) mc).cols.length ≤ mc.toNat ∧
    (safeColNames (cleanedCols df) ≠ [] →
      ∃ a b, (sanitize_for_arrow df (some pc) mc).cols.map Prod.fst = a ++ b ∧
        (∀ n ∈ a, n ∈ pc) ∧ (∀ n ∈ b, n ∉ pc)) := by
  unfold sanitize_for_arrow
  rw [if_neg (by simp [hne])]
  by_cases hocne : orderedCols (preferPart (some pc) (safeColNames (cleanedCols df)))
      (safeColNames (cleanedCols df)) ≠ []
  · rw [if_pos hocne]
    have hsafemem : ∀ n ∈ safeColNames (cleanedCols df), ∃ p ∈ cleanedCols df, p.1 = n := by
      intro n hn
      unfold safeColNames at hn
      obtain ⟨p, hp, hpn⟩ := List.mem_map.mp hn
      exact ⟨p, (List.mem_filter.mp hp).1, hpn⟩
    have hppsub : ∀ n ∈ preferPart (some pc) (safeColNames (cleanedCols df)),
        n ∈ pc ∧ n ∈ safeColNames (cleanedCols df) := by
      intro n hn
      unfold preferPart at hn
      have := List.mem_filter.mp hn
      exact ⟨this.1, by simpa using this.2⟩
    have hocmem : ∀ n ∈ orderedCols (preferPart (some pc) (safeColNames (cleanedCols df)))
        (safeColNames (cleanedCols df)), ∃ p ∈ cleanedCols df, p.1 = n := by
      intro n hn
      unfold orderedCols at hn
      rcases List.mem_append.mp hn with h1 | h1
      · exact hsafemem n (hppsub n h1).2
      · exact hsafemem n (List.mem_filter.mp h1).1
    have hnames : (selectCols (cleanedCols df)
        (pySliceTo mc (orderedCols (preferPart (some pc) (safeColNames (cleanedCols df)))
          (safeColNames (cleanedCols df))))).map Prod.fst
        = pySliceTo mc (orderedCols (preferPart (some pc) (safeColNames (cleanedCols df)))
          (safeColNames (cleanedCols df))) :=
      selectCols_names _ _ (fun n hn => hocmem n (mem_pySliceTo mc _ n hn))
    constructor
    · calc (selectCols (cleanedCols df) _).length
          ≤ (pySliceTo mc (orderedCols (preferPart (some pc)
              (safeColNames (cleanedCols df))) (safeColNames (cleanedCols df)))).length :=
            selectCols_length_le _ _
        _ ≤ mc.toNat := pySliceTo_length_le mc hmc _
    · intro _
      have hslice : pySliceTo mc (orderedCols (preferPart (some pc)
          (safeColNames (cleanedCols df))) (safeColNames (cleanedCols df)))
          = (preferPart (some pc) (safeColNames (cleanedCols df))).take mc.toNat ++
            ((safeColNames (cleanedCols df)).filter
              (fun c => !decide (c ∈ preferPart (some pc)
                (safeColNames (cleanedCols df))))).take
              (mc.toNat - (preferPart (some pc) (safeColNames (cleanedCols df))).length) := by
        unfold orderedCols pySliceTo
        rw [if_pos hmc]
        exact List.take_append_eq_append_take
      refine ⟨(preferPart (some pc) (safeColNames (cleanedCols df))).take mc.toNat,
        ((safeColNames (cleanedCols df)).filter
          (fun c => !decide (c ∈ preferPart (some pc) (safeColNames (cleanedCols df))))).take
          (mc.toNat - (preferPart (some pc) (safeColNames (cleanedCols df))).length),
        ?_, ?_, ?_⟩
      · show (selectCols (cleanedCols df) _).map Prod.fst = _
        rw [hnames, hslice]
      · intro n hn
        exact (hppsub n (List.mem_of_mem_take hn)).1
      · intro n hn hnpc
        have h1 := List.mem_filter.mp (List.mem_of_mem_take hn)
        have h2 : n ∈ preferPart (some pc) (safeColNames (cleanedCols df)) := by
          unfold preferPart
          exact List.mem_filter.mpr ⟨hnpc, by simpa using h1.1⟩
        have h3 := h1.2
        simp [h2] at h3
  · rw [if_neg hocne]
    constructor
    · exact pySliceTo_length_le mc hmc _
    · intro hsafene
      exfalso
      push_neg at hocne
      obtain ⟨n, hn⟩ := List.exists_mem_of_ne_nil _ hsafene
      by_cases hnp : n ∈ preferPart (some pc) (safeColNames (cleanedCols df))
      · have hmemoc : n ∈ orderedCols (preferPart (some pc)
            (safeColNames (cleanedCols df))) (safeColNames (cleanedCols df)) := by
          unfold orderedCols
          exact List.mem_append_left _ hnp
        rw [hocne] at hmemoc
        cases hmemoc
      · have hmemoc : n ∈ orderedCols (preferPart (some pc)
            (safeColNames (cleanedCols df))) (safeColNames (cleanedCols df)) := by
          unfold orderedCols
          refine List.mem_append_right _ (List.mem_filter.mpr ⟨hn, by simpa using hnp⟩)
        rw [hocne] at hmemoc
        cases hmemoc

/-- Witness for the amended C8 at a concrete one-column table. -/
theorem c8_amended_cap_and_prefix_witness :
    (sanitize_for_arrow ⟨[(pstr "a", [PyVal.int 1])]⟩ (some [pstr "a"]) 20).cols.length
        ≤ (20 : Int).toNat ∧
    (safeColNames (cleanedCols ⟨[(pstr "a", [PyVal.int 1])]⟩) ≠ [] →
      ∃ a b, (sanitize_for_arrow ⟨[(pstr "a", [PyVal.int 1])]⟩
          (some [pstr "a"]) 20).cols.map Prod.fst = a ++ b ∧
        (∀ n ∈ a, n ∈ [pstr "a"]) ∧ (∀ n ∈ b, n ∉ [pstr "a"])) :=
  c8_amended_cap_and_prefix ⟨[(pstr "a", [PyVal.int 1])]⟩ [pstr "a"] 20 rfl (by decide)

/-- **C9**: the record flattener on the spec's mixed list yields exactly the
four records in order (the non-JSON string silently dropped); a single mapping
is promoted to a one-element list; `None` yields the empty list. -/
theorem c9_flattener_examples :
    flatten_records_maybe (.list
      [.dict [(pstr "a", .int 1)],
       .list [.dict [(pstr "b", .int 2)]],
       .str (pstr "not json"),
       .str (pstr "\x7b\x22c\x22:3\x7d"),
       .str (pstr "[\x7b\x22d\x22:4\x7d]")])
    = [.dict [(pstr "a", .int 1)], .dict [(pstr "b", .int 2)],
       .dict [(pstr "c", .int 3)], .dict [(pstr "d", .int 4)]] ∧
    flatten_records_maybe (.dict [(pstr "x", .int 1)]) = [.dict [(pstr "x", .int 1)]] ∧
    flatten_records_maybe PyVal.none = [] :=
  ⟨by rfl, by rfl, by rfl⟩

/-- **C10**: the amenity extractor on the spec's details list yields exactly
`{"amenity_Golf Course": "Yes"}` — the boolean renders as `"Yes"`, the
camelCase type is human-readabilized, and the entry with category `"other"`
(not in {amenity, infrastructure, location}) is excluded. -/
theorem c10_amenity_example :
    extract_amenities (.dict [(pstr "payload.relationships.details", .list
      [.dict [(pstr "category", .str (pstr "amenity")),
              (pstr "type", .str (pstr "golfCourse")),
              (pstr "value", .bool true)],
       .dict [(pstr "category", .str (pstr "other")),
              (pstr "type", .str (pstr "x")),
              (pstr "value", .bool true)]])])
    = .ok [(pstr "amenity_Golf Course", .str (pstr "Yes"))] := by rfl

end Aziz
